import Mathlib

/-!
Verification of the sparse-matrix ⇄ relational codec of the
cell-annotation-service pilot scripts (`anndata_to_bq.py`,
`random_bq_to_anndata.py`).

The Python code is shallowly embedded:
* the Avro output file of `write_avro` becomes a list of flushed batches
  (the file is opened in append mode, so the function receives the prior
  contents and appends to them);
* the AnnData object becomes row/column metadata tables plus a row-major
  list of stored entries (a canonical scipy CSR matrix normalised to COO
  iteration order);
* NumPy float counts become rationals, and Python `int(v)` becomes
  truncation toward zero;
* the BigQuery result rows consumed by `random_bq_to_anndata` become a
  list of `BqRow` records, and its accumulation loop becomes a `foldl`
  over an explicit `ReconState`.
-/

namespace CasPilot

/-! ## `write_avro` (anndata_to_bq.py lines 16-35)

The generator is embedded as the finite list of records it yields, the
open file as the list of batches already in it (append mode `a+b`), and
each `writer(out, parsed_schema, records)` call as appending one batch.
`progress_batch_size` only controls printing and has no effect on the
sink, so it is not modelled. -/

/-- The record-consuming loop of `write_avro`: `counter` counts records
seen, `buf` is the in-memory `records` list, `out` the file contents.
After the generator is exhausted a non-empty partial buffer is flushed
once more. -/
def writeLoop {α : Type} (F : Nat) : List α → Nat → List α → List (List α) → List (List α)
  | [], _, buf, out => if 0 < buf.length then out ++ [buf] else out
  | r :: rs, counter, buf, out =>
    if (counter + 1) % F = 0 then writeLoop F rs (counter + 1) [] (out ++ [buf ++ [r]])
    else writeLoop F rs (counter + 1) (buf ++ [r]) out

/-- `write_avro(generator, schema, filename, flush_batch_size, _)`:
`out0` is what the append-mode file already holds. -/
def write_avro {α : Type} (out0 : List (List α)) (F : Nat) (records : List α) :
    List (List α) :=
  writeLoop F records 0 [] out0

/-! ## Forward direction: `anndata_to_bq.py` -/

/-- A record of `<basename>_cell_info.avro` (`dump_cell_info`). -/
structure CellInfoRecord where
  cas_cell_index : Int
  original_cell_id : String
  cell_type : String
deriving Repr, DecidableEq

/-- A record of `<basename>_feature_info.avro` (`dump_feature_info`). -/
structure FeatureInfoRecord where
  cas_feature_index : Int
  original_feature_id : String
  feature_name : String
deriving Repr, DecidableEq

/-- A record of `<basename>_raw_counts.avro` (`dump_core_matrix`). -/
structure RawCountRecord where
  cas_cell_index : Int
  cas_feature_index : Int
  raw_counts : Int
deriving Repr, DecidableEq

/-- The input AnnData object, restricted to what the scripts read:
`obs` rows as (index value = original_cell_id, cell_type), `var` rows as
(index value = original_feature_id, feature_name), and the raw count
matrix as the row-major list of stored entries of each matrix row
(column position, stored value).  `tocoo` on a canonical scipy matrix
yields exactly these entries in this order. -/
structure AnnData where
  obs : List (String × String)
  var : List (String × String)
  rows : List (List (Nat × Rat))
deriving Repr

/-- Python `int(v)` on a float value: truncation toward zero
(T-division of the numerator by the denominator). -/
def pyInt (q : Rat) : Int := q.num.tdiv q.den

/-- `np.arange(S, S + N)`: the `cas_cell_index` / `cas_feature_index`
column built by `dump_cell_info` / `dump_feature_info`, also the
`row_index_to_cas_cell_index` / `col_index_to_cas_feature_index`
lookup tables. -/
def arangeIds (S : Int) (N : Nat) : List Int :=
  (List.range N).map fun p : Nat => S + (p : Int)

/-- The lookup `row_index_to_cas_cell_index[i]` (and its feature
counterpart): position `i` holds `S + i`. -/
def casIndexOf (S : Int) (i : Nat) : Int := S + (i : Int)

/-- The record stream of `cell_generator` in `dump_cell_info`: the
`obs` rows in order, row `i` carrying `cas_cell_index = S + i`. -/
def cellInfoFrom (S : Int) : List (String × String) → List CellInfoRecord
  | [] => []
  | c :: cs => ⟨S, c.1, c.2⟩ :: cellInfoFrom (S + 1) cs

/-- `dump_cell_info` output records. -/
def dump_cell_info (S : Int) (obs : List (String × String)) : List CellInfoRecord :=
  cellInfoFrom S obs

/-- The record stream of `feature_generator` in `dump_feature_info`. -/
def featureInfoFrom (S : Int) : List (String × String) → List FeatureInfoRecord
  | [] => []
  | c :: cs => ⟨S, c.1, c.2⟩ :: featureInfoFrom (S + 1) cs

/-- `dump_feature_info` output records. -/
def dump_feature_info (S : Int) (var : List (String × String)) : List FeatureInfoRecord :=
  featureInfoFrom S var

/-- `x.tocoo(copy=False)` iteration from matrix row `k` on:
`zip(cx.row, cx.col, cx.data)` in row-major order of stored entries. -/
def cooFrom (k : Nat) : List (List (Nat × Rat)) → List (Nat × Nat × Rat)
  | [] => []
  | r :: rs => (r.map fun jv => (k, jv.1, jv.2)) ++ cooFrom (k + 1) rs

/-- The full COO entry stream of the matrix. -/
def cooEntries (rows : List (List (Nat × Rat))) : List (Nat × Nat × Rat) :=
  cooFrom 0 rows

/-- `raw_counts_generator` in `dump_core_matrix`: one output record per
COO entry, indices sent through the lookup tables, value through
`int(v)`. -/
def raw_counts_generator (row_lookup col_lookup : Nat → Int)
    (x : List (List (Nat × Rat))) : List RawCountRecord :=
  (cooEntries x).map fun e => ⟨row_lookup e.1, col_lookup e.2.1, pyInt e.2.2⟩

/-- Total number of stored entries of the matrix (`len(cx.data)`). -/
def nnzStored (rows : List (List (Nat × Rat))) : Nat :=
  (rows.map List.length).sum

/-- Lines 148-149 of `process`: Python `d if not x else x` — the default
is used when the argument is `None` (unspecified) or `0` (falsy). -/
def resolve_batch_size (default : Int) (arg : Option Int) : Int :=
  match arg with
  | none => default
  | some v => if v = 0 then default else v

/-- The pair (flush_batch_size, progress_batch_size) that `process`
passes to every `write_avro` call. -/
def process_batch_sizes (flush progress : Option Int) : Int × Int :=
  (resolve_batch_size 10000 flush, resolve_batch_size 1000000 progress)

/-! ## Reverse direction: `random_bq_to_anndata.py` -/

/-- One row of the BigQuery join consumed by `random_bq_to_anndata`
(`SELECT matrix.cas_cell_index, original_cell_id, cell_type,
matrix.cas_feature_index, original_feature_id, feature_name,
raw_counts AS count ...`). -/
structure BqRow where
  cas_cell_index : Int
  original_cell_id : String
  cell_type : String
  cas_feature_index : Int
  original_feature_id : String
  feature_name : String
  count : Int
deriving Repr, DecidableEq

/-- The mutable locals of `random_bq_to_anndata`'s loop (the `row_num`
counter only feeds `print` and is not modelled). -/
structure ReconState where
  col_count : Nat
  feature_to_column : List (String × Nat)
  last_original_cell_id : Option String
  last_cell_type : Option String
  indptr : List Nat
  indices : List Nat
  data : List Int
  cell_names : List (Option String)
  cell_types : List (Option String)
  feature_ids : List String
  feature_names : List String
deriving Repr, DecidableEq

/-- Locals at loop entry (lines 37-49). -/
def initState : ReconState :=
  ⟨0, [], none, none, [0], [], [], [], [], [], []⟩

/-- Closing a row group: `cell_names.append(last_original_cell_id)`,
`cell_types.append(last_cell_type)`, `indptr.append(len(indices))`. -/
def closeRow (s : ReconState) : ReconState :=
  { s with cell_names := s.cell_names ++ [s.last_original_cell_id],
           cell_types := s.cell_types ++ [s.last_cell_type],
           indptr := s.indptr ++ [s.indices.length] }

/-- Lines 59-69: `if original_cell_id != last_original_cell_id:` —
close the previous row group (unless this is the very first row) and
remember the new row identity.  The comparison is against the *string*
`original_cell_id`; `cas_cell_index` is never read. -/
def stepBoundary (s : ReconState) (r : BqRow) : ReconState :=
  if some r.original_cell_id = s.last_original_cell_id then s
  else
    { (if s.last_original_cell_id = none then s else closeRow s) with
      last_original_cell_id := some r.original_cell_id,
      last_cell_type := some r.cell_type }

/-- Lines 71-75: `if original_feature_id not in feature_to_column:` —
assign the next dense column index to a newly seen column label.  The
Python dict is an association list looked up from the front and
extended at the back. -/
def stepDict (s : ReconState) (r : BqRow) : ReconState :=
  if (List.lookup r.original_feature_id s.feature_to_column).isSome then s
  else
    { s with
      feature_to_column := s.feature_to_column ++ [(r.original_feature_id, s.col_count)],
      feature_ids := s.feature_ids ++ [r.original_feature_id],
      feature_names := s.feature_names ++ [r.feature_name],
      col_count := s.col_count + 1 }

/-- Lines 76-79: `col_num = feature_to_column[original_feature_id]`,
`indices.append(col_num)`, `data.append(count)`. -/
def stepAppend (s : ReconState) (r : BqRow) : ReconState :=
  { s with
    indices := s.indices ++ [(List.lookup r.original_feature_id s.feature_to_column).getD 0],
    data := s.data ++ [r.count] }

/-- One iteration of the `for row in list(cell_data):` loop
(lines 51-79). -/
def step (s : ReconState) (r : BqRow) : ReconState :=
  stepAppend (stepDict (stepBoundary s r) r) r

/-- `random_bq_to_anndata` lines 51-87: the loop followed by the
unconditional "Deal with the last row" block. -/
def random_bq_to_anndata (rows : List BqRow) : ReconState :=
  closeRow (rows.foldl step initState)

/-! ## The sorted, joined triplet stream fed to the reconstructor -/

/-- `ORDER BY matrix.cas_cell_index` of the query in `get_cell_data`,
applied to the raw-count triplets (a stable sort on the row id). -/
def sortByCellIndex (ts : List RawCountRecord) : List RawCountRecord :=
  List.insertionSort (fun a b => a.cas_cell_index ≤ b.cas_cell_index) ts

/-- The relational join of the query in `get_cell_data`: each matrix
triplet is joined with the unique cell-info and feature-info records
carrying its `cas_cell_index` / `cas_feature_index`. -/
def joinRow (cells : List CellInfoRecord) (feats : List FeatureInfoRecord)
    (t : RawCountRecord) : Option BqRow :=
  match cells.find? (fun c => c.cas_cell_index == t.cas_cell_index),
        feats.find? (fun f => f.cas_feature_index == t.cas_feature_index) with
  | some c, some f =>
    some ⟨t.cas_cell_index, c.original_cell_id, c.cell_type, t.cas_feature_index,
          f.original_feature_id, f.feature_name, t.raw_counts⟩
  | _, _ => none

/-- The full joined stream delivered to `random_bq_to_anndata`. -/
def joinTriplets (cells : List CellInfoRecord) (feats : List FeatureInfoRecord)
    (ts : List RawCountRecord) : List BqRow :=
  ts.filterMap (joinRow cells feats)

/-- The whole forward-then-reverse pipeline for one AnnData input:
dump cell and feature metadata starting at the two offsets, extract the
raw-count triplets through the two lookup tables, sort them by row id,
join them with their metadata, reconstruct. -/
def roundTripState (Sc Sf : Int) (A : AnnData) : ReconState :=
  random_bq_to_anndata
    (joinTriplets (dump_cell_info Sc A.obs) (dump_feature_info Sf A.var)
      (sortByCellIndex
        (raw_counts_generator (casIndexOf Sc) (casIndexOf Sf) A.rows)))

/-! ## Specification-side closed forms used to state the theorems -/

/-- Index of the first occurrence of a string in a list (0 when the
list is exhausted). -/
def idxOfStr (a : String) : List String → Nat
  | [] => 0
  | x :: xs => if x = a then 0 else idxOfStr a xs + 1

/-- The association list `[(l₀, k), (l₁, k+1), …]`: the shape of the
reconstructor's `feature_to_column` dictionary over its `feature_ids`. -/
def tagFrom (k : Nat) : List String → List (String × Nat)
  | [] => []
  | x :: xs => (x, k) :: tagFrom (k + 1) xs

/-- `[base, base + n₀, base + n₀ + n₁, …]` (one entry per block): the
shape of a CSR row-pointer array without its final entry. -/
def ptrsFrom (base : Nat) : List Nat → List Nat
  | [] => []
  | n :: ns => base :: ptrsFrom (base + n) ns

/-- The joined record a COO entry turns into when metadata lookups hit
the rows the dumps created for its coordinates. -/
def mkBq (Sc Sf : Int) (obs var : List (String × String)) (e : Nat × Nat × Rat) : BqRow :=
  ⟨Sc + (e.1 : Int), (obs.getD e.1 ("", "")).1, (obs.getD e.1 ("", "")).2,
   Sf + (e.2.1 : Int), (var.getD e.2.1 ("", "")).1, (var.getD e.2.1 ("", "")).2,
   pyInt e.2.2⟩

/-- The joined stream cut into per-matrix-row blocks, each tagged with
its row's original_cell_id and cell_type. -/
def blocksFrom (Sf : Int) (var : List (String × String)) :
    Int → List (String × String) → List (List (Nat × Rat)) →
    List (String × String × List BqRow)
  | _, [], _ => []
  | _, _ :: _, [] => []
  | Sc, c :: cs, r :: rs =>
    (c.1, c.2, r.map fun jv =>
      ⟨Sc, c.1, c.2, Sf + (jv.1 : Int), (var.getD jv.1 ("", "")).1,
       (var.getD jv.1 ("", "")).2, pyInt jv.2⟩) :: blocksFrom Sf var (Sc + 1) cs rs

/-- Well-formedness of the reconstructor's column state: the dictionary
tags `feature_ids` with their positions, the counter is its length,
ids are distinct and names run parallel. -/
def ColWF (s : ReconState) : Prop :=
  s.feature_to_column = tagFrom 0 s.feature_ids ∧
  s.col_count = s.feature_ids.length ∧
  s.feature_ids.Nodup ∧
  s.feature_names.length = s.feature_ids.length

end CasPilot

namespace CasPilot

/-! ## Helper lemmas: first-occurrence indices and the tagged dictionary -/

theorem idxOfStr_lt_length {a : String} {l : List String} (h : a ∈ l) :
    idxOfStr a l < l.length := by
  induction l with
  | nil => cases h
  | cons x xs ih =>
    by_cases hx : x = a
    · simp [idxOfStr, hx]
    · have hm : a ∈ xs := by
        rcases List.mem_cons.mp h with h1 | h1
        · exact absurd h1.symm hx
        · exact h1
      simp only [idxOfStr, if_neg hx, List.length_cons]
      exact Nat.succ_lt_succ (ih hm)

theorem getD_idxOfStr {a : String} {l : List String} (h : a ∈ l) (d : String) :
    l.getD (idxOfStr a l) d = a := by
  induction l with
  | nil => cases h
  | cons x xs ih =>
    by_cases hx : x = a
    · simp [idxOfStr, hx]
    · have hm : a ∈ xs := by
        rcases List.mem_cons.mp h with h1 | h1
        · exact absurd h1.symm hx
        · exact h1
      simp only [idxOfStr, if_neg hx, List.getD_cons_succ]
      exact ih hm

theorem idxOfStr_getD {l : List String} (hl : l.Nodup) {c : Nat} (hc : c < l.length)
    (d : String) : idxOfStr (l.getD c d) l = c := by
  induction l generalizing c with
  | nil => simp at hc
  | cons x xs ih =>
    cases c with
    | zero => simp [idxOfStr]
    | succ n =>
      have hn : n < xs.length := by
        simpa using Nat.lt_of_succ_lt_succ hc
      have hmem : xs.getD n d ∈ xs := by
        rw [List.getD_eq_getElem xs d hn]; exact List.getElem_mem hn
      have hx : x ≠ xs.getD n d := by
        intro hcontra
        exact (List.nodup_cons.mp hl).1 (hcontra ▸ hmem)
      simp only [List.getD_cons_succ, idxOfStr, if_neg hx]
      rw [ih (List.nodup_cons.mp hl).2 hn]

theorem idxOfStr_append_left {a : String} {l : List String} (t : List String)
    (h : a ∈ l) : idxOfStr a (l ++ t) = idxOfStr a l := by
  induction l with
  | nil => cases h
  | cons x xs ih =>
    by_cases hx : x = a
    · simp [idxOfStr, hx]
    · have hm : a ∈ xs := by
        rcases List.mem_cons.mp h with h1 | h1
        · exact absurd h1.symm hx
        · exact h1
      simp only [List.cons_append, idxOfStr, if_neg hx, List.append_eq]
      have h2 : idxOfStr a (xs ++ t) = idxOfStr a xs := ih hm
      omega

theorem idxOfStr_append_self {a : String} {l : List String} (h : a ∉ l) :
    idxOfStr a (l ++ [a]) = l.length := by
  induction l with
  | nil => simp [idxOfStr]
  | cons x xs ih =>
    have hx : x ≠ a := by
      intro hcontra; exact h (hcontra ▸ List.mem_cons_self x xs)
    have hm : a ∉ xs := fun hc => h (List.mem_cons_of_mem x hc)
    simp only [List.cons_append, idxOfStr, if_neg hx, List.length_cons, List.append_eq]
    have h2 : idxOfStr a (xs ++ [a]) = xs.length := ih hm
    omega

theorem lookup_cons_eq_if {β : Type} (a k : String) (b : β) (es : List (String × β)) :
    List.lookup a ((k, b) :: es) = if a = k then some b else List.lookup a es := by
  by_cases h : a = k
  · simp [List.lookup_cons, h]
  · have hb : (a == k) = false := by simp [h]
    simp [List.lookup_cons, hb, h]

theorem lookup_tagFrom (a : String) (l : List String) (k : Nat) :
    List.lookup a (tagFrom k l) =
      if a ∈ l then some (k + idxOfStr a l) else none := by
  induction l generalizing k with
  | nil => simp [tagFrom]
  | cons x xs ih =>
    rw [tagFrom, lookup_cons_eq_if]
    by_cases hx : a = x
    · subst hx
      simp [idxOfStr]
    · rw [if_neg hx, ih (k + 1)]
      by_cases hm : a ∈ xs
      · rw [if_pos hm, if_pos (List.mem_cons_of_mem x hm)]
        have hxs : x ≠ a := fun hc => hx hc.symm
        simp only [idxOfStr, if_neg hxs]
        congr 1
        omega
      · rw [if_neg hm, if_neg]
        intro hc
        rcases List.mem_cons.mp hc with h1 | h1
        · exact hx h1
        · exact hm h1

theorem tagFrom_append (k : Nat) (l : List String) (x : String) :
    tagFrom k (l ++ [x]) = tagFrom k l ++ [(x, k + l.length)] := by
  induction l generalizing k with
  | nil => simp [tagFrom]
  | cons y ys ih =>
    simp only [List.cons_append, tagFrom, List.append_eq, ih (k + 1), List.length_cons]
    have h : k + 1 + ys.length = k + (ys.length + 1) := by omega
    rw [h]

/-! ## Helper lemmas: `pyInt` is truncation toward zero -/

theorem pyInt_eq_floor {q : Rat} (h : 0 ≤ q) : pyInt q = ⌊q⌋ := by
  have hnum : 0 ≤ q.num := Rat.num_nonneg.mpr h
  have hden : (0 : Int) ≤ (q.den : Int) := Int.natCast_nonneg q.den
  rw [pyInt, Int.tdiv_eq_ediv hnum hden]
  conv_rhs => rw [← Rat.num_div_den q]
  rw [Rat.floor_intCast_div_natCast]

theorem pyInt_eq_ceil {q : Rat} (h : q < 0) : pyInt q = ⌈q⌉ := by
  have h1 : pyInt q = -pyInt (-q) := by
    rw [pyInt, pyInt, Rat.neg_num, Rat.neg_den, Int.neg_tdiv, neg_neg]
  have h2 : pyInt (-q) = ⌊-q⌋ := pyInt_eq_floor (by linarith)
  rw [h1, h2, Int.floor_neg, neg_neg]

/-! ## C2: remap bijection -/

/-- C2: for every count N ≥ 0 and start offset S, `np.arange(S, S + N)`
assigns local positions 0..N-1 exactly the N distinct global ids
{S, …, S+N-1}, position p getting S+p, in positional order. -/
theorem remap_bijection (N : Nat) (S : Int) :
    (arangeIds S N).length = N ∧
    (∀ p : Nat, p < N → (arangeIds S N).getD p 0 = S + (p : Int)) ∧
    (arangeIds S N).Nodup ∧
    (∀ x : Int, x ∈ arangeIds S N ↔ S ≤ x ∧ x < S + (N : Int)) := by
  have hlen : (arangeIds S N).length = N := by
    rw [arangeIds, List.length_map, List.length_range]
  refine ⟨hlen, ?_, ?_, ?_⟩
  · intro p hp
    have hp2 : p < (arangeIds S N).length := by rw [hlen]; exact hp
    rw [List.getD_eq_getElem _ _ hp2]
    simp only [arangeIds, List.getElem_map, List.getElem_range]
  · rw [arangeIds]
    refine List.Nodup.map ?_ (List.nodup_range N)
    intro a b hab
    have hab2 : S + (a : Int) = S + (b : Int) := hab
    omega
  · intro x
    rw [arangeIds]
    constructor
    · intro hx
      rcases List.mem_map.mp hx with ⟨p, hp, hpx⟩
      rw [List.mem_range] at hp
      omega
    · intro hx
      obtain ⟨h1, h2⟩ := hx
      refine List.mem_map.mpr ⟨(x - S).toNat, ?_, ?_⟩
      · rw [List.mem_range]; omega
      · omega

/-- Witness for C2 at N = 3, S = 5: position 2 gets id 7. -/
theorem remap_bijection_witness :
    (2 : Nat) < 3 ∧ (arangeIds 5 3).getD 2 0 = 5 + (2 : Int) :=
  ⟨by decide, (remap_bijection 3 5).2.1 2 (by decide)⟩

/-! ## C8: default thresholds -/

/-- C8: whenever `flush_batch_size` (resp. `progress_batch_size`) is
unspecified, `process` runs the writer with 10000 (resp. 1000000). -/
theorem default_batch_sizes :
    (∀ progress : Option Int, (process_batch_sizes none progress).1 = 10000) ∧
    (∀ flush : Option Int, (process_batch_sizes flush none).2 = 1000000) :=
  ⟨fun _ => rfl, fun _ => rfl⟩

/-! ## C10: empty-stream edge case -/

/-- C10: on the empty stream the reconstructor still executes its
unconditional final row-group close, producing `row_pointers = [0, 0]`
and one sentinel row (label and category `None`), never a zero-row
result. -/
theorem empty_stream_reconstruction :
    (random_bq_to_anndata []).indptr = [0, 0] ∧
    (random_bq_to_anndata []).cell_names = [none] ∧
    (random_bq_to_anndata []).cell_types = [none] ∧
    (random_bq_to_anndata []).cell_names.length ≠ 0 :=
  ⟨rfl, rfl, rfl, by decide⟩

/-! ## C4: concrete reconstruction scenario -/

/-- The triplet stream of the spec's concrete scenario, joined with its
metadata (the `cas_feature_index` values 100/101 are arbitrary — they do
not influence the reconstructor). -/
def scenarioRows : List BqRow :=
  [⟨5, "cellX", "typeA", 100, "A", "geneA", 2⟩,
   ⟨5, "cellX", "typeA", 101, "B", "geneB", 1⟩,
   ⟨7, "cellY", "typeB", 100, "A", "geneA", 4⟩]

/-- C4: the scenario stream reconstructs to `row_pointers = [0,2,3]`,
`column_indices = [0,1,0]`, `values = [2,1,4]`,
`row_labels = ["cellX","cellY"]`, `column_labels = ["A","B"]`. -/
theorem concrete_reconstruction :
    (random_bq_to_anndata scenarioRows).indptr = [0, 2, 3] ∧
    (random_bq_to_anndata scenarioRows).indices = [0, 1, 0] ∧
    (random_bq_to_anndata scenarioRows).data = [2, 1, 4] ∧
    (random_bq_to_anndata scenarioRows).cell_names = [some "cellX", some "cellY"] ∧
    (random_bq_to_anndata scenarioRows).feature_ids = ["A", "B"] :=
  ⟨rfl, rfl, rfl, rfl, rfl⟩

end CasPilot

namespace CasPilot

/-! ## C3 / C7: the batched writer -/

/-- Invariant proof for `writeLoop`: the buffer length always equals
`counter % F`, every batch already in the sink has length exactly `F`,
and then the final sink flattens to everything, with all mid-run batches
full and a final partial batch only at the end. -/
theorem writeLoop_spec {α : Type} (F : Nat) (hF : 1 ≤ F) :
    ∀ (rs : List α) (counter : Nat) (buf : List α) (out : List (List α)),
      buf.length = counter % F → (∀ b ∈ out, b.length = F) →
      (writeLoop F rs counter buf out).flatten = out.flatten ++ buf ++ rs ∧
      (∀ b ∈ (writeLoop F rs counter buf out).dropLast, b.length = F) ∧
      (∀ b ∈ writeLoop F rs counter buf out, 0 < b.length ∧ b.length ≤ F) := by
  intro rs
  induction rs with
  | nil =>
    intro counter buf out hbuf hout
    by_cases hb : 0 < buf.length
    · rw [writeLoop, if_pos hb]
      refine ⟨by simp, ?_, ?_⟩
      · rw [List.dropLast_concat]
        exact hout
      · intro b hbmem
        rcases List.mem_append.mp hbmem with h1 | h1
        · have h2 := hout b h1
          omega
        · rw [List.mem_singleton] at h1
          subst h1
          have h3 : counter % F < F := Nat.mod_lt _ (by omega)
          omega
    · rw [writeLoop, if_neg hb]
      have hbe : buf = [] := List.length_eq_zero.mp (by omega)
      subst hbe
      refine ⟨by simp, ?_, ?_⟩
      · intro b hbm
        exact hout b ((List.dropLast_sublist out).subset hbm)
      · intro b hbm
        have h2 := hout b hbm
        omega
  | cons r rs ih =>
    intro counter buf out hbuf hout
    have hm : counter % F < F := Nat.mod_lt _ (by omega)
    have hmod : (counter % F + 1) % F = (counter + 1) % F := by
      rw [Nat.mod_add_mod]
    by_cases hc : (counter + 1) % F = 0
    · rw [writeLoop, if_pos hc]
      have hfull : counter % F + 1 = F := by
        rcases Nat.lt_or_ge (counter % F + 1) F with h | h
        · rw [Nat.mod_eq_of_lt h] at hmod
          omega
        · omega
      have hout2 : ∀ b ∈ out ++ [buf ++ [r]], b.length = F := by
        intro b hbm
        rcases List.mem_append.mp hbm with h1 | h1
        · exact hout b h1
        · rw [List.mem_singleton] at h1
          subst h1
          simp only [List.length_append, List.length_singleton]
          omega
      have h := ih (counter + 1) [] (out ++ [buf ++ [r]]) (by simp [hc]) hout2
      refine ⟨?_, h.2.1, h.2.2⟩
      rw [h.1]
      simp [List.append_assoc]
    · rw [writeLoop, if_neg hc]
      have hlt : counter % F + 1 < F := by
        rcases Nat.lt_or_ge (counter % F + 1) F with h | h
        · exact h
        · have hEq : counter % F + 1 = F := by omega
          rw [hEq, Nat.mod_self] at hmod
          exact absurd hmod.symm hc
      have hbuf2 : (buf ++ [r]).length = (counter + 1) % F := by
        simp only [List.length_append, List.length_singleton]
        rw [← hmod, Nat.mod_eq_of_lt hlt]
        omega
      have h := ih (counter + 1) (buf ++ [r]) out hbuf2 hout
      refine ⟨?_, h.2.1, h.2.2⟩
      rw [h.1]
      simp [List.append_assoc]

/-- C3: for every record sequence and every flush_batch_size F ≥ 1 the
sink ends up holding exactly the input records in insertion order, each
exactly once; every flushed batch is non-empty of size ≤ F, and every
batch but the last has size exactly F (the last is the partial flush). -/
theorem writer_exactly_once {α : Type} (F : Nat) (hF : 1 ≤ F) (records : List α) :
    (write_avro [] F records).flatten = records ∧
    (∀ b ∈ write_avro ([] : List (List α)) F records, 0 < b.length ∧ b.length ≤ F) ∧
    (∀ b ∈ (write_avro ([] : List (List α)) F records).dropLast, b.length = F) := by
  have h := writeLoop_spec F hF records 0 [] [] (by simp) (by simp)
  rw [write_avro]
  exact ⟨by simpa using h.1, h.2.2, h.2.1⟩

/-- Witness for C3 at F = 2, records [1,2,3] (R = F + 1). -/
theorem writer_exactly_once_witness :
    1 ≤ 2 ∧ (write_avro ([] : List (List Nat)) 2 [1, 2, 3]).flatten = [1, 2, 3] :=
  ⟨by decide, (writer_exactly_once 2 (by decide) [1, 2, 3]).1⟩

/-- The sink parameter of `writeLoop` is only ever appended to. -/
theorem writeLoop_append_out {α : Type} (F : Nat) :
    ∀ (rs : List α) (c : Nat) (buf : List α) (out : List (List α)),
      writeLoop F rs c buf out = out ++ writeLoop F rs c buf [] := by
  intro rs
  induction rs with
  | nil =>
    intro c buf out
    rw [writeLoop, writeLoop]
    by_cases hb : 0 < buf.length
    · rw [if_pos hb, if_pos hb]
      simp
    · rw [if_neg hb, if_neg hb]
      simp
  | cons r rs ih =>
    intro c buf out
    rw [writeLoop, writeLoop]
    by_cases hc : (c + 1) % F = 0
    · rw [if_pos hc, if_pos hc, ih (c + 1) [] (out ++ [buf ++ [r]]),
          ih (c + 1) [] ([] ++ [buf ++ [r]])]
      simp [List.append_assoc]
    · rw [if_neg hc, if_neg hc, ih (c + 1) (buf ++ [r]) out]

/-- C7: the writer's sink is opened in append mode, so it ends up as the
prior contents followed by the records just written, and re-invoking the
writer on the same sink appends a second copy instead of overwriting. -/
theorem append_mode_sink {α : Type} (C : List (List α)) (F : Nat) (hF : 1 ≤ F)
    (records : List α) :
    write_avro C F records = C ++ write_avro [] F records ∧
    (write_avro C F records).flatten = C.flatten ++ records ∧
    write_avro (write_avro C F records) F records =
      C ++ write_avro [] F records ++ write_avro [] F records := by
  have h1 : ∀ D : List (List α), write_avro D F records = D ++ write_avro [] F records := by
    intro D
    rw [write_avro, write_avro, writeLoop_append_out F records 0 [] D]
  refine ⟨h1 C, ?_, ?_⟩
  · rw [h1 C, List.flatten_append, (writer_exactly_once F hF records).1]
  · rw [h1 (write_avro C F records), h1 C, List.append_assoc]

/-- Witness for C7 with prior contents [[9]], F = 2, records [1,2,3]. -/
theorem append_mode_sink_witness :
    1 ≤ 2 ∧ write_avro [[9]] 2 [1, 2, 3] = [[9]] ++ write_avro ([] : List (List Nat)) 2 [1, 2, 3] :=
  ⟨by decide, (append_mode_sink [[9]] 2 (by decide) [1, 2, 3]).1⟩

end CasPilot

namespace CasPilot

/-! ## C5: truncation toward zero -/

/-- C5: every entry's value is stored as `pyInt v`, and `pyInt`
truncates toward zero (below the value for non-negative inputs, above
it for negative ones — never rounding); in particular 3.9 is stored as
3 and -0.5 as 0. -/
theorem truncation_toward_zero :
    (∀ (row_lookup col_lookup : Nat → Int) (x : List (List (Nat × Rat)))
       (e : Nat × Nat × Rat), e ∈ cooEntries x →
       (⟨row_lookup e.1, col_lookup e.2.1, pyInt e.2.2⟩ : RawCountRecord) ∈
         raw_counts_generator row_lookup col_lookup x) ∧
    (∀ q : Rat, 0 ≤ q → ((pyInt q : Rat) ≤ q ∧ q < (pyInt q : Rat) + 1)) ∧
    (∀ q : Rat, q < 0 → (q ≤ (pyInt q : Rat) ∧ (pyInt q : Rat) - 1 < q)) ∧
    pyInt (39 / 10) = 3 ∧ pyInt (-1 / 2) = 0 := by
  refine ⟨?_, ?_, ?_, ?_, ?_⟩
  · intro row_lookup col_lookup x e he
    exact List.mem_map.mpr ⟨e, he, rfl⟩
  · intro q hq
    rw [pyInt_eq_floor hq]
    exact ⟨Int.floor_le q, Int.lt_floor_add_one q⟩
  · intro q hq
    rw [pyInt_eq_ceil hq]
    refine ⟨Int.le_ceil q, ?_⟩
    have h := Int.ceil_lt_add_one q
    linarith
  · have h : (39 / 10 : Rat) = mkRat 39 10 := by
      rw [Rat.mkRat_eq_div]; norm_num
    rw [h]; decide
  · have h : (-1 / 2 : Rat) = mkRat (-1) 2 := by
      rw [Rat.mkRat_eq_div]; norm_num
    rw [h]; decide

/-- Witness for C5: a one-entry matrix holding 2 is emitted with stored
value `pyInt 2`, and the truncation bounds hold at 2 ≥ 0. -/
theorem truncation_toward_zero_witness :
    (((0, 0, (2 : Rat)) ∈ cooEntries [[(0, (2 : Rat))]]) ∧
      (⟨5, 7, pyInt 2⟩ : RawCountRecord) ∈
        raw_counts_generator (fun _ => 5) (fun _ => 7) [[(0, (2 : Rat))]]) ∧
    ((0 : Rat) ≤ 2 ∧ ((pyInt 2 : Rat) ≤ 2 ∧ (2 : Rat) < (pyInt 2 : Rat) + 1)) :=
  ⟨⟨by decide,
     truncation_toward_zero.1 (fun _ => 5) (fun _ => 7) [[(0, (2 : Rat))]]
       (0, 0, (2 : Rat)) (by decide)⟩,
   ⟨by decide, truncation_toward_zero.2.1 2 (by decide)⟩⟩

/-! ## C6: extraction completeness -/

theorem cooFrom_length (rows : List (List (Nat × Rat))) :
    ∀ k : Nat, (cooFrom k rows).length = (rows.map List.length).sum := by
  induction rows with
  | nil => intro k; rfl
  | cons r rs ih =>
    intro k
    simp [cooFrom, ih (k + 1)]

theorem cooFrom_fst_ge {rows : List (List (Nat × Rat))} :
    ∀ {k : Nat} {e : Nat × Nat × Rat}, e ∈ cooFrom k rows → k ≤ e.1 := by
  induction rows with
  | nil => intro k e he; cases he
  | cons r rs ih =>
    intro k e he
    rcases List.mem_append.mp he with h1 | h1
    · rcases List.mem_map.mp h1 with ⟨jv, _, hjv⟩
      rw [← hjv]
    · have := ih h1
      omega

theorem cooFrom_pairs_nodup {rows : List (List (Nat × Rat))}
    (h : ∀ r ∈ rows, (r.map Prod.fst).Nodup) :
    ∀ k : Nat, ((cooFrom k rows).map (fun e => (e.1, e.2.1))).Nodup := by
  induction rows with
  | nil => intro k; simp [cooFrom]
  | cons r rs ih =>
    intro k
    rw [cooFrom, List.map_append, List.nodup_append]
    refine ⟨?_, ?_, ?_⟩
    · have hr : (r.map Prod.fst).Nodup := h r (List.mem_cons_self r rs)
      have : ((r.map fun jv => (k, jv.1, jv.2)).map (fun e => (e.1, e.2.1))) =
          (r.map Prod.fst).map (fun j => (k, j)) := by
        simp [List.map_map]
      rw [this]
      refine List.Nodup.map ?_ hr
      intro a b hab
      simpa using hab
    · exact ih (fun r hr => h r (List.mem_cons_of_mem _ hr)) (k + 1)
    · intro a ha hb
      rcases List.mem_map.mp ha with ⟨e1, he1, hae⟩
      rcases List.mem_map.mp hb with ⟨e2, he2, hbe⟩
      rcases List.mem_map.mp he1 with ⟨jv, _, hjv⟩
      have h1 : a.1 = k := by rw [← hae, ← hjv]
      have h2 : k + 1 ≤ e2.1 := cooFrom_fst_ge he2
      have h3 : a.1 = e2.1 := by rw [← hbe]
      omega

/-- C6: for a matrix with k stored entries the extractor yields exactly
k triplets, one per stored entry (zero values included, not filtered),
with pairwise-distinct (row, column) source pairs and pairwise-distinct
(cas_cell_index, cas_feature_index) output pairs. -/
theorem extraction_completeness (Sc Sf : Int) (x : List (List (Nat × Rat)))
    (hcols : ∀ r ∈ x, (r.map Prod.fst).Nodup) :
    (raw_counts_generator (casIndexOf Sc) (casIndexOf Sf) x).length = nnzStored x ∧
    ((cooEntries x).map (fun e => (e.1, e.2.1))).Nodup ∧
    (∀ e ∈ cooEntries x,
      (⟨casIndexOf Sc e.1, casIndexOf Sf e.2.1, pyInt e.2.2⟩ : RawCountRecord) ∈
        raw_counts_generator (casIndexOf Sc) (casIndexOf Sf) x) ∧
    ((raw_counts_generator (casIndexOf Sc) (casIndexOf Sf) x).map
        (fun t => (t.cas_cell_index, t.cas_feature_index))).Nodup := by
  refine ⟨?_, cooFrom_pairs_nodup hcols 0, ?_, ?_⟩
  · rw [raw_counts_generator, List.length_map, cooEntries, cooFrom_length, nnzStored]
  · intro e he
    exact List.mem_map.mpr ⟨e, he, rfl⟩
  · rw [raw_counts_generator, List.map_map]
    have heq : ((fun t : RawCountRecord => (t.cas_cell_index, t.cas_feature_index)) ∘
        fun e : Nat × Nat × Rat => (⟨casIndexOf Sc e.1, casIndexOf Sf e.2.1, pyInt e.2.2⟩ : RawCountRecord)) =
        (fun p : Nat × Nat => (casIndexOf Sc p.1, casIndexOf Sf p.2)) ∘ (fun e : Nat × Nat × Rat => (e.1, e.2.1)) := by
      funext e; rfl
    rw [heq, ← List.map_map]
    refine List.Nodup.map ?_ (cooFrom_pairs_nodup hcols 0)
    intro a b hab
    rw [Prod.ext_iff] at hab
    obtain ⟨h1, h2⟩ := hab
    simp only [casIndexOf] at h1 h2
    have h3 : a.1 = b.1 := by omega
    have h4 : a.2 = b.2 := by omega
    exact Prod.ext h3 h4

/-- Witness for C6: a 1×2 row holding values 1 and 0 (an explicit zero)
yields exactly 2 triplets. -/
theorem extraction_completeness_witness :
    (∀ r ∈ [[(0, (1 : Rat)), (1, 0)]], (r.map Prod.fst).Nodup) ∧
    (raw_counts_generator (casIndexOf 3) (casIndexOf 4) [[(0, (1 : Rat)), (1, 0)]]).length =
      nnzStored [[(0, (1 : Rat)), (1, 0)]] :=
  ⟨by decide, (extraction_completeness 3 4 [[(0, (1 : Rat)), (1, 0)]] (by decide)).1⟩

/-! ## C9: row grouping is keyed on the row label, not the row id -/

theorem step_ignores_cas_cell_index (s : ReconState) (r : BqRow) (c : Int) :
    step s { r with cas_cell_index := c } = step s r := rfl

theorem step_last_original_cell_id (s : ReconState) (r : BqRow) :
    (step s r).last_original_cell_id = some r.original_cell_id := by
  rw [step, stepAppend]
  rw [stepDict]
  by_cases hd : (List.lookup r.original_feature_id (stepBoundary s r).feature_to_column).isSome
  all_goals {
    first
      | rw [if_pos hd]
      | rw [if_neg hd]
    rw [stepBoundary]
    by_cases hb : some r.original_cell_id = s.last_original_cell_id
    · rw [if_pos hb]
      exact hb.symm
    · rw [if_neg hb]
  }

theorem step_same_label_no_boundary (s : ReconState) (r : BqRow)
    (h : s.last_original_cell_id = some r.original_cell_id) :
    (step s r).indptr = s.indptr ∧ (step s r).cell_names = s.cell_names ∧
    (step s r).cell_types = s.cell_types := by
  have hb : stepBoundary s r = s := by
    rw [stepBoundary, if_pos h.symm]
  rw [step, hb, stepAppend, stepDict]
  by_cases hd : (List.lookup r.original_feature_id s.feature_to_column).isSome
  · rw [if_pos hd]
    exact ⟨rfl, rfl, rfl⟩
  · rw [if_neg hd]
    exact ⟨rfl, rfl, rfl⟩

theorem foldl_step_map_reindex (f : BqRow → Int) :
    ∀ (rows : List BqRow) (s : ReconState),
      (rows.map fun r => { r with cas_cell_index := f r }).foldl step s =
        rows.foldl step s := by
  intro rows
  induction rows with
  | nil => intro s; rfl
  | cons r rs ih =>
    intro s
    rw [List.map_cons, List.foldl_cons, List.foldl_cons,
        step_ignores_cas_cell_index s r (f r), ih (step s r)]

/-- C9: the reconstructor's row-group boundary compares only the
`original_cell_id` string — `cas_cell_index` never influences the
output (any reassignment of that field leaves the result unchanged),
and a record whose label equals the pending one opens no new row group
(no new `row_pointers` or row-label entry), whatever its
`cas_cell_index`. -/
theorem row_grouping_keyed_on_label :
    (∀ (rows : List BqRow) (f : BqRow → Int),
      random_bq_to_anndata (rows.map fun r => { r with cas_cell_index := f r }) =
        random_bq_to_anndata rows) ∧
    (∀ (pre : List BqRow) (a b : BqRow), a.original_cell_id = b.original_cell_id →
      (step ((pre ++ [a]).foldl step initState) b).indptr =
          ((pre ++ [a]).foldl step initState).indptr ∧
        (step ((pre ++ [a]).foldl step initState) b).cell_names =
          ((pre ++ [a]).foldl step initState).cell_names) := by
  constructor
  · intro rows f
    rw [random_bq_to_anndata, random_bq_to_anndata, foldl_step_map_reindex]
  · intro pre a b hab
    have hlast : ((pre ++ [a]).foldl step initState).last_original_cell_id =
        some b.original_cell_id := by
      rw [List.foldl_append, List.foldl_cons, List.foldl_nil,
          step_last_original_cell_id, hab]
    have h := step_same_label_no_boundary _ b hlast
    exact ⟨h.1, h.2.1⟩

/-- Witness for C9: two records with different cas_cell_index (5 and 99)
but the same label "cellX" merge into one row group. -/
theorem row_grouping_keyed_on_label_witness :
    (⟨5, "cellX", "typeA", 100, "A", "geneA", 2⟩ : BqRow).original_cell_id =
      (⟨99, "cellX", "typeA", 101, "B", "geneB", 1⟩ : BqRow).original_cell_id ∧
    (step (([] ++ [(⟨5, "cellX", "typeA", 100, "A", "geneA", 2⟩ : BqRow)]).foldl step initState)
        (⟨99, "cellX", "typeA", 101, "B", "geneB", 1⟩ : BqRow)).indptr =
      (([] ++ [(⟨5, "cellX", "typeA", 100, "A", "geneA", 2⟩ : BqRow)]).foldl step initState).indptr :=
  ⟨by decide,
   (row_grouping_keyed_on_label.2 []
     (⟨5, "cellX", "typeA", 100, "A", "geneA", 2⟩ : BqRow)
     (⟨99, "cellX", "typeA", 101, "B", "geneB", 1⟩ : BqRow) (by decide)).1⟩

end CasPilot

namespace CasPilot

/-! ## C1: round trip

The claim as frozen quantifies over *every* matrix; it fails when a
matrix row stores no entries (the row emits no triplet, so the
reconstructor cannot see it and row order is not recovered), so the
round-trip theorem below carries the hypotheses that force the claim to
hold.  First the counterexample. -/

/-- C1 counterexample: the 1×1 matrix with no stored entries and row
label "c0".  Its round trip yields the sentinel row `none` instead of
the original row labels, so the reconstructed matrix does not have row
order equal to the original. -/
theorem round_trip_counterexample :
    (roundTripState 0 0 ⟨[("c0", "t0")], [("g0", "n0")], [[]]⟩).cell_names = [none] ∧
    (roundTripState 0 0 ⟨[("c0", "t0")], [("g0", "n0")], [[]]⟩).cell_names ≠
      (⟨[("c0", "t0")], [("g0", "n0")], [[]]⟩ : AnnData).obs.map (fun c => some c.1) := by
  refine ⟨rfl, ?_⟩
  decide

/-! Stage 1: the extracted stream is already sorted by row id, and the
join recovers each entry's metadata. -/

theorem cooFrom_fst_lt {rows : List (List (Nat × Rat))} :
    ∀ {k : Nat} {e : Nat × Nat × Rat}, e ∈ cooFrom k rows → e.1 < k + rows.length := by
  induction rows with
  | nil => intro k e he; cases he
  | cons r rs ih =>
    intro k e he
    rw [List.length_cons]
    rcases List.mem_append.mp he with h1 | h1
    · rcases List.mem_map.mp h1 with ⟨jv, _, hjv⟩
      have h2 : e.1 = k := by rw [← hjv]
      omega
    · have h2 := ih h1
      omega

theorem cooFrom_pairwise_fst (rows : List (List (Nat × Rat))) :
    ∀ k : Nat, List.Pairwise (fun e e' : Nat × Nat × Rat => e.1 ≤ e'.1) (cooFrom k rows) := by
  induction rows with
  | nil => intro k; simp [cooFrom]
  | cons r rs ih =>
    intro k
    rw [cooFrom, List.pairwise_append]
    refine ⟨?_, ih (k + 1), ?_⟩
    · induction r with
      | nil => simp
      | cons x xs ihr =>
        rw [List.map_cons]
        refine List.Pairwise.cons ?_ ihr
        intro b hb
        rcases List.mem_map.mp hb with ⟨jv, _, hjv⟩
        rw [← hjv]
    · intro a ha b hb
      rcases List.mem_map.mp ha with ⟨jv, _, hjv⟩
      have h1 : a.1 = k := by rw [← hjv]
      have h2 := cooFrom_fst_ge hb
      omega

theorem sorted_raw_stream (Sc Sf : Int) (x : List (List (Nat × Rat))) :
    sortByCellIndex (raw_counts_generator (casIndexOf Sc) (casIndexOf Sf) x) =
      raw_counts_generator (casIndexOf Sc) (casIndexOf Sf) x := by
  apply List.Sorted.insertionSort_eq
  rw [raw_counts_generator, cooEntries]
  refine List.pairwise_map.mpr (List.Pairwise.imp ?_ (cooFrom_pairwise_fst x 0))
  intro a b hab
  simp only [casIndexOf]
  omega

theorem find_cellInfoFrom (obs : List (String × String)) :
    ∀ (S : Int) (i : Nat), i < obs.length →
      (cellInfoFrom S obs).find? (fun c => c.cas_cell_index == S + (i : Int)) =
        some ⟨S + (i : Int), (obs.getD i ("", "")).1, (obs.getD i ("", "")).2⟩ := by
  induction obs with
  | nil => intro S i hi; simp at hi
  | cons c cs ih =>
    intro S i hi
    rw [cellInfoFrom, List.find?_cons]
    cases i with
    | zero =>
      have hp : ((⟨S, c.1, c.2⟩ : CellInfoRecord).cas_cell_index == S + ((0 : Nat) : Int)) = true := by
        simp
      simp [hp]
    | succ m =>
      have hp : ((⟨S, c.1, c.2⟩ : CellInfoRecord).cas_cell_index == S + (((m : Nat) + 1 : Nat) : Int)) = false := by
        simp only [beq_eq_false_iff_ne, ne_eq]
        intro hcontra
        omega
      simp only [hp]
      have hkey : S + (((m : Nat) + 1 : Nat) : Int) = (S + 1) + (m : Int) := by
        push_cast; ring
      simp only [hkey]
      rw [ih (S + 1) m (by simp only [List.length_cons] at hi; omega)]
      simp

theorem find_featureInfoFrom (var : List (String × String)) :
    ∀ (S : Int) (j : Nat), j < var.length →
      (featureInfoFrom S var).find? (fun f => f.cas_feature_index == S + (j : Int)) =
        some ⟨S + (j : Int), (var.getD j ("", "")).1, (var.getD j ("", "")).2⟩ := by
  induction var with
  | nil => intro S j hj; simp at hj
  | cons c cs ih =>
    intro S j hj
    rw [featureInfoFrom, List.find?_cons]
    cases j with
    | zero =>
      have hp : ((⟨S, c.1, c.2⟩ : FeatureInfoRecord).cas_feature_index == S + ((0 : Nat) : Int)) = true := by
        simp
      simp [hp]
    | succ m =>
      have hp : ((⟨S, c.1, c.2⟩ : FeatureInfoRecord).cas_feature_index == S + (((m : Nat) + 1 : Nat) : Int)) = false := by
        simp only [beq_eq_false_iff_ne, ne_eq]
        intro hcontra
        omega
      simp only [hp]
      have hkey : S + (((m : Nat) + 1 : Nat) : Int) = (S + 1) + (m : Int) := by
        push_cast; ring
      simp only [hkey]
      rw [ih (S + 1) m (by simp only [List.length_cons] at hj; omega)]
      simp

theorem filterMap_eq_map_of {α β : Type} (f : α → Option β) (g : α → β) :
    ∀ l : List α, (∀ a ∈ l, f a = some (g a)) → l.filterMap f = l.map g := by
  intro l
  induction l with
  | nil => intro _; rfl
  | cons a as ih =>
    intro h
    rw [List.filterMap_cons, h a (List.mem_cons_self a as), List.map_cons,
        ih (fun b hb => h b (List.mem_cons_of_mem a hb))]

theorem join_canonical (Sc Sf : Int) (obs var : List (String × String))
    (rows : List (List (Nat × Rat))) (hlen : rows.length = obs.length)
    (hbound : ∀ e ∈ cooEntries rows, e.2.1 < var.length) :
    joinTriplets (dump_cell_info Sc obs) (dump_feature_info Sf var)
      (raw_counts_generator (casIndexOf Sc) (casIndexOf Sf) rows) =
      (cooEntries rows).map (mkBq Sc Sf obs var) := by
  rw [joinTriplets, raw_counts_generator, List.filterMap_map]
  apply filterMap_eq_map_of
  intro e he
  have hi : e.1 < obs.length := by
    have h2 : e.1 < 0 + rows.length := cooFrom_fst_lt he
    omega
  have hj : e.2.1 < var.length := hbound e he
  have hc := find_cellInfoFrom obs Sc e.1 hi
  have hf := find_featureInfoFrom var Sf e.2.1 hj
  simp only [Function.comp_apply, joinRow, dump_cell_info, dump_feature_info, mkBq, casIndexOf]
  rw [hc, hf]

end CasPilot

namespace CasPilot

/-! Stage 2: the canonical stream decomposes into per-row blocks. -/

theorem cooFrom_shift (rows : List (List (Nat × Rat))) :
    ∀ k : Nat, cooFrom (k + 1) rows =
      (cooFrom k rows).map (fun e => (e.1 + 1, e.2)) := by
  induction rows with
  | nil => intro k; rfl
  | cons r rs ih =>
    intro k
    rw [cooFrom, cooFrom, List.map_append]
    congr 1
    · rw [List.map_map]
      apply List.map_congr_left
      intro jv _
      rfl
    · exact ih (k + 1)

theorem blocksFrom_flat (Sf : Int) (var : List (String × String)) :
    ∀ (cs : List (String × String)) (rs : List (List (Nat × Rat))) (Sc : Int)
      (obsF : Nat → String × String),
      (∀ m, m < cs.length → cs.getD m ("", "") = obsF m) → cs.length = rs.length →
      (blocksFrom Sf var Sc cs rs).flatMap (fun b => b.2.2) =
        (cooFrom 0 rs).map (fun e =>
          (⟨Sc + (e.1 : Int), (obsF e.1).1, (obsF e.1).2, Sf + (e.2.1 : Int),
            (var.getD e.2.1 ("", "")).1, (var.getD e.2.1 ("", "")).2,
            pyInt e.2.2⟩ : BqRow)) := by
  intro cs
  induction cs with
  | nil =>
    intro rs Sc obsF _ hlen
    have hrs : rs = [] := List.length_eq_zero.mp hlen.symm
    subst hrs
    rfl
  | cons c cs ih =>
    intro rs Sc obsF hobs hlen
    cases rs with
    | nil => simp at hlen
    | cons r rs2 =>
      rw [blocksFrom, List.flatMap_cons, cooFrom, List.map_append]
      have h0 : obsF 0 = c := (hobs 0 (by simp)).symm
      congr 1
      · rw [List.map_map]
        apply List.map_congr_left
        intro jv _
        show (⟨Sc, c.1, c.2, Sf + (jv.1 : Int), (var.getD jv.1 ("", "")).1,
               (var.getD jv.1 ("", "")).2, pyInt jv.2⟩ : BqRow) =
             ⟨Sc + ((0 : Nat) : Int), (obsF 0).1, (obsF 0).2, Sf + (jv.1 : Int),
               (var.getD jv.1 ("", "")).1, (var.getD jv.1 ("", "")).2, pyInt jv.2⟩
        rw [← h0]
        norm_num
      · rw [show (1 : Nat) = 0 + 1 from rfl, cooFrom_shift rs2 0, List.map_map]
        have hlen2 : cs.length = rs2.length := by
          simp only [List.length_cons] at hlen
          omega
        have hobs2 : ∀ m, m < cs.length → cs.getD m ("", "") = (fun m => obsF (m + 1)) m := by
          intro m hm
          have := hobs (m + 1) (by simp only [List.length_cons]; omega)
          simpa using this
        rw [ih rs2 (Sc + 1) (fun m => obsF (m + 1)) hobs2 hlen2]
        apply List.map_congr_left
        intro e _
        show (⟨(Sc + 1) + (e.1 : Int), (obsF (e.1 + 1)).1, (obsF (e.1 + 1)).2,
               Sf + (e.2.1 : Int), (var.getD e.2.1 ("", "")).1,
               (var.getD e.2.1 ("", "")).2, pyInt e.2.2⟩ : BqRow) =
             ⟨Sc + ((e.1 + 1 : Nat) : Int), (obsF (e.1 + 1)).1, (obsF (e.1 + 1)).2,
               Sf + (e.2.1 : Int), (var.getD e.2.1 ("", "")).1,
               (var.getD e.2.1 ("", "")).2, pyInt e.2.2⟩
        have hcast : (Sc + 1) + (e.1 : Int) = Sc + ((e.1 + 1 : Nat) : Int) := by
          push_cast; ring
        rw [hcast]

theorem blocksFrom_map_fst (Sf : Int) (var : List (String × String)) :
    ∀ (cs : List (String × String)) (rs : List (List (Nat × Rat))) (Sc : Int),
      cs.length = rs.length →
      (blocksFrom Sf var Sc cs rs).map (fun b => b.1) = cs.map Prod.fst := by
  intro cs
  induction cs with
  | nil =>
    intro rs Sc hlen
    rfl
  | cons c cs ih =>
    intro rs Sc hlen
    cases rs with
    | nil => simp at hlen
    | cons r rs2 =>
      rw [blocksFrom, List.map_cons, List.map_cons,
          ih rs2 (Sc + 1) (by simp only [List.length_cons] at hlen; omega)]

theorem blocksFrom_map_type (Sf : Int) (var : List (String × String)) :
    ∀ (cs : List (String × String)) (rs : List (List (Nat × Rat))) (Sc : Int),
      cs.length = rs.length →
      (blocksFrom Sf var Sc cs rs).map (fun b => b.2.1) = cs.map Prod.snd := by
  intro cs
  induction cs with
  | nil =>
    intro rs Sc hlen
    rfl
  | cons c cs ih =>
    intro rs Sc hlen
    cases rs with
    | nil => simp at hlen
    | cons r rs2 =>
      rw [blocksFrom, List.map_cons, List.map_cons,
          ih rs2 (Sc + 1) (by simp only [List.length_cons] at hlen; omega)]

theorem blocksFrom_map_len (Sf : Int) (var : List (String × String)) :
    ∀ (cs : List (String × String)) (rs : List (List (Nat × Rat))) (Sc : Int),
      cs.length = rs.length →
      (blocksFrom Sf var Sc cs rs).map (fun b => b.2.2.length) = rs.map List.length := by
  intro cs
  induction cs with
  | nil =>
    intro rs Sc hlen
    have hrs : rs = [] := List.length_eq_zero.mp hlen.symm
    subst hrs
    rfl
  | cons c cs ih =>
    intro rs Sc hlen
    cases rs with
    | nil => simp at hlen
    | cons r rs2 =>
      rw [blocksFrom, List.map_cons, List.map_cons,
          ih rs2 (Sc + 1) (by simp only [List.length_cons] at hlen; omega)]
      simp

theorem blocksFrom_wf (Sf : Int) (var : List (String × String)) :
    ∀ (cs : List (String × String)) (rs : List (List (Nat × Rat))) (Sc : Int),
      (∀ r ∈ rs, r ≠ []) →
      ∀ b ∈ blocksFrom Sf var Sc cs rs,
        b.2.2 ≠ [] ∧ ∀ x ∈ b.2.2, x.original_cell_id = b.1 ∧ x.cell_type = b.2.1 := by
  intro cs
  induction cs with
  | nil =>
    intro rs Sc _ b hb
    cases hb
  | cons c cs ih =>
    intro rs Sc hrs b hb
    cases rs with
    | nil => cases hb
    | cons r rs2 =>
      rw [blocksFrom] at hb
      rcases List.mem_cons.mp hb with h1 | h1
      · subst h1
        constructor
        · intro hcontra
          exact hrs r (List.mem_cons_self r rs2) (List.map_eq_nil_iff.mp hcontra)
        · intro x hx
          rcases List.mem_map.mp hx with ⟨jv, _, hjv⟩
          rw [← hjv]
          exact ⟨rfl, rfl⟩
      · exact ih rs2 (Sc + 1) (fun r2 h2 => hrs r2 (List.mem_cons_of_mem r h2)) b h1

theorem dropLast_append_getLastD {α : Type} :
    ∀ (l : List α), l ≠ [] → ∀ d : α, l.dropLast ++ [l.getLastD d] = l := by
  intro l
  induction l with
  | nil => intro h; exact absurd rfl h
  | cons x xs ih =>
    intro _ d
    cases xs with
    | nil => simp
    | cons y ys =>
      rw [List.dropLast_cons₂, List.getLastD_cons, List.cons_append]
      congr 1
      exact ih (List.cons_ne_nil y ys) x

end CasPilot

namespace CasPilot

/-! Stage 3: how the fold treats row groups. -/

theorem stepBoundary_same (s : ReconState) (r : BqRow)
    (h : s.last_original_cell_id = some r.original_cell_id) :
    stepBoundary s r = s := by
  rw [stepBoundary, if_pos h.symm]

theorem stepBoundary_from_some (s : ReconState) (r : BqRow) (o : String)
    (hs : s.last_original_cell_id = some o) (hne : o ≠ r.original_cell_id) :
    stepBoundary s r =
      { closeRow s with last_original_cell_id := some r.original_cell_id,
                        last_cell_type := some r.cell_type } := by
  rw [stepBoundary, if_neg, if_neg]
  · rw [hs]; simp
  · intro hcontra
    rw [hs] at hcontra
    exact hne (Option.some_injective _ hcontra).symm

theorem stepBoundary_from_none (s : ReconState) (r : BqRow)
    (hs : s.last_original_cell_id = none) :
    stepBoundary s r =
      { s with last_original_cell_id := some r.original_cell_id,
               last_cell_type := some r.cell_type } := by
  rw [stepBoundary, if_neg (by rw [hs]; simp), if_pos hs]

theorem stepDict_cells (s : ReconState) (r : BqRow) :
    (stepDict s r).indptr = s.indptr ∧ (stepDict s r).cell_names = s.cell_names ∧
    (stepDict s r).cell_types = s.cell_types ∧
    (stepDict s r).last_original_cell_id = s.last_original_cell_id ∧
    (stepDict s r).last_cell_type = s.last_cell_type ∧
    (stepDict s r).indices = s.indices ∧ (stepDict s r).data = s.data := by
  rw [stepDict]
  by_cases hd : (List.lookup r.original_feature_id s.feature_to_column).isSome
  · rw [if_pos hd]
    exact ⟨rfl, rfl, rfl, rfl, rfl, rfl, rfl⟩
  · rw [if_neg hd]
    exact ⟨rfl, rfl, rfl, rfl, rfl, rfl, rfl⟩

theorem stepAppend_cells (s : ReconState) (r : BqRow) :
    (stepAppend s r).indptr = s.indptr ∧ (stepAppend s r).cell_names = s.cell_names ∧
    (stepAppend s r).cell_types = s.cell_types ∧
    (stepAppend s r).last_original_cell_id = s.last_original_cell_id ∧
    (stepAppend s r).last_cell_type = s.last_cell_type ∧
    (stepAppend s r).indices.length = s.indices.length + 1 := by
  rw [stepAppend]
  exact ⟨rfl, rfl, rfl, rfl, rfl, by simp⟩

theorem step_cells_same (s : ReconState) (r : BqRow)
    (h : s.last_original_cell_id = some r.original_cell_id) :
    (step s r).indptr = s.indptr ∧ (step s r).cell_names = s.cell_names ∧
    (step s r).cell_types = s.cell_types ∧
    (step s r).last_original_cell_id = s.last_original_cell_id ∧
    (step s r).last_cell_type = s.last_cell_type ∧
    (step s r).indices.length = s.indices.length + 1 := by
  rw [step, stepBoundary_same s r h]
  have hd := stepDict_cells s r
  have ha := stepAppend_cells (stepDict s r) r
  exact ⟨ha.1.trans hd.1, ha.2.1.trans hd.2.1, ha.2.2.1.trans hd.2.2.1,
         ha.2.2.2.1.trans hd.2.2.2.1, ha.2.2.2.2.1.trans hd.2.2.2.2.1,
         by rw [ha.2.2.2.2.2, hd.2.2.2.2.2.1]⟩

theorem step_cells_from_some (s : ReconState) (r : BqRow) (o : String)
    (hs : s.last_original_cell_id = some o) (hne : o ≠ r.original_cell_id) :
    (step s r).indptr = s.indptr ++ [s.indices.length] ∧
    (step s r).cell_names = s.cell_names ++ [some o] ∧
    (step s r).cell_types = s.cell_types ++ [s.last_cell_type] ∧
    (step s r).last_original_cell_id = some r.original_cell_id ∧
    (step s r).last_cell_type = some r.cell_type ∧
    (step s r).indices.length = s.indices.length + 1 := by
  rw [step, stepBoundary_from_some s r o hs hne]
  set s1 : ReconState :=
    { closeRow s with last_original_cell_id := some r.original_cell_id,
                      last_cell_type := some r.cell_type } with hs1
  have hd := stepDict_cells s1 r
  have ha := stepAppend_cells (stepDict s1 r) r
  have e1 : s1.indptr = s.indptr ++ [s.indices.length] := rfl
  have e2 : s1.cell_names = s.cell_names ++ [s.last_original_cell_id] := rfl
  have e3 : s1.cell_types = s.cell_types ++ [s.last_cell_type] := rfl
  have e4 : s1.last_original_cell_id = some r.original_cell_id := rfl
  have e5 : s1.last_cell_type = some r.cell_type := rfl
  have e6 : s1.indices = s.indices := rfl
  refine ⟨ha.1.trans (hd.1.trans e1), ?_, ha.2.2.1.trans (hd.2.2.1.trans e3),
          ha.2.2.2.1.trans (hd.2.2.2.1.trans e4),
          ha.2.2.2.2.1.trans (hd.2.2.2.2.1.trans e5), ?_⟩
  · rw [ha.2.1, hd.2.1, e2, hs]
  · rw [ha.2.2.2.2.2, hd.2.2.2.2.2.1, e6]

theorem step_cells_from_none (s : ReconState) (r : BqRow)
    (hs : s.last_original_cell_id = none) :
    (step s r).indptr = s.indptr ∧
    (step s r).cell_names = s.cell_names ∧
    (step s r).cell_types = s.cell_types ∧
    (step s r).last_original_cell_id = some r.original_cell_id ∧
    (step s r).last_cell_type = some r.cell_type ∧
    (step s r).indices.length = s.indices.length + 1 := by
  rw [step, stepBoundary_from_none s r hs]
  set s1 : ReconState :=
    { s with last_original_cell_id := some r.original_cell_id,
             last_cell_type := some r.cell_type } with hs1
  have hd := stepDict_cells s1 r
  have ha := stepAppend_cells (stepDict s1 r) r
  exact ⟨ha.1.trans hd.1, ha.2.1.trans hd.2.1, ha.2.2.1.trans hd.2.2.1,
         ha.2.2.2.1.trans hd.2.2.2.1, ha.2.2.2.2.1.trans hd.2.2.2.2.1,
         by rw [ha.2.2.2.2.2, hd.2.2.2.2.2.1]⟩

theorem foldl_same_label (o : String) :
    ∀ (blk : List BqRow) (s : ReconState),
      (∀ x ∈ blk, x.original_cell_id = o) → s.last_original_cell_id = some o →
      (blk.foldl step s).indptr = s.indptr ∧
      (blk.foldl step s).cell_names = s.cell_names ∧
      (blk.foldl step s).cell_types = s.cell_types ∧
      (blk.foldl step s).last_original_cell_id = s.last_original_cell_id ∧
      (blk.foldl step s).last_cell_type = s.last_cell_type ∧
      (blk.foldl step s).indices.length = s.indices.length + blk.length := by
  intro blk
  induction blk with
  | nil => intro s _ _; exact ⟨rfl, rfl, rfl, rfl, rfl, by simp⟩
  | cons x xs ih =>
    intro s hall hs
    rw [List.foldl_cons]
    have hx : s.last_original_cell_id = some x.original_cell_id := by
      rw [hs, hall x (List.mem_cons_self x xs)]
    have h1 := step_cells_same s x hx
    have h2 := ih (step s x) (fun y hy => hall y (List.mem_cons_of_mem _ hy))
      (by rw [h1.2.2.2.1, hs])
    refine ⟨h2.1.trans h1.1, h2.2.1.trans h1.2.1, h2.2.2.1.trans h1.2.2.1,
            h2.2.2.2.1.trans h1.2.2.2.1, h2.2.2.2.2.1.trans h1.2.2.2.2.1, ?_⟩
    rw [h2.2.2.2.2.2, h1.2.2.2.2.2, List.length_cons]
    omega

theorem foldl_block_from_some (o t : String) (blk : List BqRow) (hne : blk ≠ [])
    (hconst : ∀ x ∈ blk, x.original_cell_id = o ∧ x.cell_type = t)
    (s : ReconState) (o' : String) (hs : s.last_original_cell_id = some o')
    (hno : o' ≠ o) :
    (blk.foldl step s).indptr = s.indptr ++ [s.indices.length] ∧
    (blk.foldl step s).cell_names = s.cell_names ++ [some o'] ∧
    (blk.foldl step s).cell_types = s.cell_types ++ [s.last_cell_type] ∧
    (blk.foldl step s).last_original_cell_id = some o ∧
    (blk.foldl step s).last_cell_type = some t ∧
    (blk.foldl step s).indices.length = s.indices.length + blk.length := by
  cases blk with
  | nil => exact absurd rfl hne
  | cons x xs =>
    rw [List.foldl_cons]
    have hxo : x.original_cell_id = o := (hconst x (List.mem_cons_self x xs)).1
    have hxt : x.cell_type = t := (hconst x (List.mem_cons_self x xs)).2
    have h1 := step_cells_from_some s x o' hs (by rw [hxo]; exact hno)
    have h2 := foldl_same_label o xs (step s x)
      (fun y hy => (hconst y (List.mem_cons_of_mem _ hy)).1)
      (by rw [h1.2.2.2.1, hxo])
    refine ⟨h2.1.trans h1.1, h2.2.1.trans h1.2.1, h2.2.2.1.trans h1.2.2.1, ?_, ?_, ?_⟩
    · rw [h2.2.2.2.1, h1.2.2.2.1, hxo]
    · rw [h2.2.2.2.2.1, h1.2.2.2.2.1, hxt]
    · rw [h2.2.2.2.2.2, h1.2.2.2.2.2, List.length_cons]
      omega

theorem foldl_block_from_none (o t : String) (blk : List BqRow) (hne : blk ≠ [])
    (hconst : ∀ x ∈ blk, x.original_cell_id = o ∧ x.cell_type = t)
    (s : ReconState) (hs : s.last_original_cell_id = none) :
    (blk.foldl step s).indptr = s.indptr ∧
    (blk.foldl step s).cell_names = s.cell_names ∧
    (blk.foldl step s).cell_types = s.cell_types ∧
    (blk.foldl step s).last_original_cell_id = some o ∧
    (blk.foldl step s).last_cell_type = some t ∧
    (blk.foldl step s).indices.length = s.indices.length + blk.length := by
  cases blk with
  | nil => exact absurd rfl hne
  | cons x xs =>
    rw [List.foldl_cons]
    have hxo : x.original_cell_id = o := (hconst x (List.mem_cons_self x xs)).1
    have hxt : x.cell_type = t := (hconst x (List.mem_cons_self x xs)).2
    have h1 := step_cells_from_none s x hs
    have h2 := foldl_same_label o xs (step s x)
      (fun y hy => (hconst y (List.mem_cons_of_mem _ hy)).1)
      (by rw [h1.2.2.2.1, hxo])
    refine ⟨h2.1.trans h1.1, h2.2.1.trans h1.2.1, h2.2.2.1.trans h1.2.2.1, ?_, ?_, ?_⟩
    · rw [h2.2.2.2.1, h1.2.2.2.1, hxo]
    · rw [h2.2.2.2.2.1, h1.2.2.2.2.1, hxt]
    · rw [h2.2.2.2.2.2, h1.2.2.2.2.2, List.length_cons]
      omega

end CasPilot

namespace CasPilot

theorem foldl_blocks_from_some :
    ∀ (blocks : List (String × String × List BqRow)) (s : ReconState) (o : String),
      s.last_original_cell_id = some o →
      (∀ b ∈ blocks, b.2.2 ≠ [] ∧
        ∀ x ∈ b.2.2, x.original_cell_id = b.1 ∧ x.cell_type = b.2.1) →
      List.Chain' (fun a b => a ≠ b) (o :: blocks.map (fun b => b.1)) →
      ((blocks.flatMap (fun b => b.2.2)).foldl step s).indptr =
        s.indptr ++ ptrsFrom s.indices.length (blocks.map (fun b => b.2.2.length)) ∧
      ((blocks.flatMap (fun b => b.2.2)).foldl step s).cell_names =
        s.cell_names ++ ((o :: blocks.map (fun b => b.1)).dropLast).map some ∧
      ((blocks.flatMap (fun b => b.2.2)).foldl step s).cell_types =
        s.cell_types ++ (s.last_cell_type :: blocks.map (fun b => some b.2.1)).dropLast ∧
      ((blocks.flatMap (fun b => b.2.2)).foldl step s).last_original_cell_id =
        some ((blocks.map (fun b => b.1)).getLastD o) ∧
      ((blocks.flatMap (fun b => b.2.2)).foldl step s).last_cell_type =
        (blocks.map (fun b => some b.2.1)).getLastD s.last_cell_type ∧
      ((blocks.flatMap (fun b => b.2.2)).foldl step s).indices.length =
        s.indices.length + (blocks.map (fun b => b.2.2.length)).sum := by
  intro blocks
  induction blocks with
  | nil =>
    intro s o hs _ _
    exact ⟨by simp [ptrsFrom], by simp, by simp, by simpa using hs, by simp, by simp⟩
  | cons b bs ih =>
    intro s o hs hwf hchain
    rw [List.map_cons] at hchain
    have hno : o ≠ b.1 := (List.chain'_cons.mp hchain).1
    have hchain2 : List.Chain' (fun a c => a ≠ c) (b.1 :: bs.map (fun b => b.1)) :=
      (List.chain'_cons.mp hchain).2
    have hwfb := hwf b (List.mem_cons_self b bs)
    rw [List.flatMap_cons, List.foldl_append]
    have h1 := foldl_block_from_some b.1 b.2.1 b.2.2 hwfb.1 hwfb.2 s o hs hno
    have h2 := ih (b.2.2.foldl step s) b.1 h1.2.2.2.1
      (fun c hc => hwf c (List.mem_cons_of_mem _ hc)) hchain2
    refine ⟨?_, ?_, ?_, ?_, ?_, ?_⟩
    · rw [h2.1, h1.1, h1.2.2.2.2.2, List.map_cons, ptrsFrom, List.append_assoc,
          List.singleton_append]
    · rw [h2.2.1, h1.2.1, List.map_cons, List.dropLast_cons₂, List.map_cons,
          List.append_assoc, List.singleton_append]
    · rw [h2.2.2.1, h1.2.2.1, h1.2.2.2.2.1, List.map_cons, List.dropLast_cons₂,
          List.append_assoc, List.singleton_append]
    · rw [h2.2.2.2.1, List.map_cons, List.getLastD_cons]
    · rw [h2.2.2.2.2.1, h1.2.2.2.2.1, List.map_cons, List.getLastD_cons]
    · rw [h2.2.2.2.2.2, h1.2.2.2.2.2, List.map_cons, List.sum_cons]
      omega

/-- Closing the last row group after a block stream: what any non-empty
list looks like as dropLast plus last element, mapped. -/
theorem map_some_dropLast_getLastD (L : List String) (d : String) (hL : L ≠ []) :
    (L.dropLast).map some ++ [some (L.getLastD d)] = L.map some := by
  have h1 : [some (L.getLastD d)] = List.map some [L.getLastD d] := rfl
  rw [h1, ← List.map_append, dropLast_append_getLastD L hL d]

/-- The reconstructor on a stream that is a concatenation of non-empty
row blocks with pairwise-distinct adjacent labels: row metadata comes
out one entry per block in block order, and the row pointers are the
partial sums of the block lengths. -/
theorem recon_blocks (blocks : List (String × String × List BqRow))
    (hwf : ∀ b ∈ blocks, b.2.2 ≠ [] ∧
      ∀ x ∈ b.2.2, x.original_cell_id = b.1 ∧ x.cell_type = b.2.1)
    (hchain : List.Chain' (fun a b => a ≠ b) (blocks.map (fun b => b.1)))
    (hne : blocks ≠ []) :
    (random_bq_to_anndata (blocks.flatMap (fun b => b.2.2))).cell_names =
      (blocks.map (fun b => b.1)).map some ∧
    (random_bq_to_anndata (blocks.flatMap (fun b => b.2.2))).cell_types =
      blocks.map (fun b => some b.2.1) ∧
    (random_bq_to_anndata (blocks.flatMap (fun b => b.2.2))).indptr =
      ptrsFrom 0 (blocks.map (fun b => b.2.2.length)) ++
        [(blocks.map (fun b => b.2.2.length)).sum] := by
  cases blocks with
  | nil => exact absurd rfl hne
  | cons b bs =>
    have hwfb := hwf b (List.mem_cons_self b bs)
    rw [random_bq_to_anndata, List.flatMap_cons, List.foldl_append]
    have h1 := foldl_block_from_none b.1 b.2.1 b.2.2 hwfb.1 hwfb.2 initState rfl
    have hchain2 : List.Chain' (fun a c => a ≠ c) (b.1 :: bs.map (fun b => b.1)) := by
      rw [List.map_cons] at hchain
      exact hchain
    have h2 := foldl_blocks_from_some bs (b.2.2.foldl step initState) b.1
      h1.2.2.2.1 (fun c hc => hwf c (List.mem_cons_of_mem _ hc)) hchain2
    have hnames0 : (b.2.2.foldl step initState).cell_names = [] := h1.2.1
    have htypes0 : (b.2.2.foldl step initState).cell_types = [] := h1.2.2.1
    have hptr0 : (b.2.2.foldl step initState).indptr = [0] := h1.1
    have hlen0 : (b.2.2.foldl step initState).indices.length = b.2.2.length := by
      rw [h1.2.2.2.2.2]
      show (0 : Nat) + b.2.2.length = b.2.2.length
      omega
    simp only [closeRow]
    refine ⟨?_, ?_, ?_⟩
    · rw [h2.2.1, hnames0, List.nil_append, h2.2.2.2.1]
      have h3 : some ((bs.map (fun b => b.1)).getLastD b.1) =
          some ((b.1 :: bs.map (fun b => b.1)).getLastD b.1) := by
        rw [List.getLastD_cons]
      rw [h3, map_some_dropLast_getLastD (b.1 :: bs.map (fun b => b.1)) b.1
            (List.cons_ne_nil _ _)]
      rfl
    · rw [h2.2.2.1, htypes0, List.nil_append, h2.2.2.2.2.1, h1.2.2.2.2.1]
      have h3 : (bs.map (fun b => some b.2.1)).getLastD (some b.2.1) =
          ((some b.2.1 :: bs.map (fun b => some b.2.1)).getLastD (some b.2.1)) := by
        rw [List.getLastD_cons]
      rw [h3, dropLast_append_getLastD _ (List.cons_ne_nil _ _) _]
      rfl
    · rw [h2.1, hptr0, hlen0, h2.2.2.2.2.2, hlen0, List.map_cons, List.sum_cons]
      have h3 : ptrsFrom 0 (b.2.2.length :: bs.map (fun b => b.2.2.length)) =
          0 :: ptrsFrom (0 + b.2.2.length) (bs.map (fun b => b.2.2.length)) := rfl
      rw [h3, Nat.zero_add]
      simp [List.append_assoc]

end CasPilot

namespace CasPilot

/-! Stage 4: the column dictionary side of the fold. -/

theorem stepBoundary_cols (s : ReconState) (r : BqRow) :
    (stepBoundary s r).feature_to_column = s.feature_to_column ∧
    (stepBoundary s r).col_count = s.col_count ∧
    (stepBoundary s r).feature_ids = s.feature_ids ∧
    (stepBoundary s r).feature_names = s.feature_names ∧
    (stepBoundary s r).indices = s.indices ∧
    (stepBoundary s r).data = s.data := by
  rw [stepBoundary]
  by_cases h1 : some r.original_cell_id = s.last_original_cell_id
  · rw [if_pos h1]
    exact ⟨rfl, rfl, rfl, rfl, rfl, rfl⟩
  · rw [if_neg h1]
    by_cases h2 : s.last_original_cell_id = none
    · rw [if_pos h2]
      exact ⟨rfl, rfl, rfl, rfl, rfl, rfl⟩
    · rw [if_neg h2]
      exact ⟨rfl, rfl, rfl, rfl, rfl, rfl⟩

theorem dictAppend_cols (u : ReconState) (r : BqRow) (hwf : ColWF u) :
    ColWF (stepAppend (stepDict u r) r) ∧
    (stepAppend (stepDict u r) r).feature_ids = u.feature_ids ++
      (if r.original_feature_id ∈ u.feature_ids then [] else [r.original_feature_id]) ∧
    (stepAppend (stepDict u r) r).feature_names = u.feature_names ++
      (if r.original_feature_id ∈ u.feature_ids then [] else [r.feature_name]) ∧
    (stepAppend (stepDict u r) r).indices = u.indices ++
      [idxOfStr r.original_feature_id (stepAppend (stepDict u r) r).feature_ids] ∧
    (stepAppend (stepDict u r) r).data = u.data ++ [r.count] ∧
    r.original_feature_id ∈ (stepAppend (stepDict u r) r).feature_ids := by
  obtain ⟨hw1, hw2, hw3, hw4⟩ := hwf
  by_cases hmem : r.original_feature_id ∈ u.feature_ids
  · have hlk : List.lookup r.original_feature_id u.feature_to_column =
        some (0 + idxOfStr r.original_feature_id u.feature_ids) := by
      rw [hw1, lookup_tagFrom, if_pos hmem]
    have hd : stepDict u r = u := by
      rw [stepDict, if_pos (by rw [hlk]; rfl)]
    rw [hd, stepAppend]
    refine ⟨⟨hw1, hw2, hw3, hw4⟩, ?_, ?_, ?_, rfl, hmem⟩
    · rw [if_pos hmem, List.append_nil]
    · rw [if_pos hmem, List.append_nil]
    · show u.indices ++ [(List.lookup r.original_feature_id u.feature_to_column).getD 0] =
          u.indices ++ [idxOfStr r.original_feature_id u.feature_ids]
      rw [hlk, Option.getD_some, Nat.zero_add]
  · have hlk : List.lookup r.original_feature_id u.feature_to_column = none := by
      rw [hw1, lookup_tagFrom, if_neg hmem]
    have hd : stepDict u r =
        { u with
          feature_to_column := u.feature_to_column ++ [(r.original_feature_id, u.col_count)],
          feature_ids := u.feature_ids ++ [r.original_feature_id],
          feature_names := u.feature_names ++ [r.feature_name],
          col_count := u.col_count + 1 } := by
      rw [stepDict, if_neg (by rw [hlk]; simp)]
    rw [hd, stepAppend]
    have hids : r.original_feature_id ∈ u.feature_ids ++ [r.original_feature_id] := by
      simp
    have hftc : u.feature_to_column ++ [(r.original_feature_id, u.col_count)] =
        tagFrom 0 (u.feature_ids ++ [r.original_feature_id]) := by
      rw [hw1, hw2, tagFrom_append, Nat.zero_add]
    refine ⟨⟨?_, ?_, ?_, ?_⟩, ?_, ?_, ?_, rfl, hids⟩
    · exact hftc
    · show u.col_count + 1 = (u.feature_ids ++ [r.original_feature_id]).length
      rw [hw2]
      simp
    · show (u.feature_ids ++ [r.original_feature_id]).Nodup
      rw [List.nodup_append]
      refine ⟨hw3, by simp, ?_⟩
      intro a ha hb
      rw [List.mem_singleton] at hb
      subst hb
      exact hmem ha
    · show (u.feature_names ++ [r.feature_name]).length =
          (u.feature_ids ++ [r.original_feature_id]).length
      simp [hw4]
    · rw [if_neg hmem]
    · rw [if_neg hmem]
    · show u.indices ++
          [(List.lookup r.original_feature_id
              (u.feature_to_column ++ [(r.original_feature_id, u.col_count)])).getD 0] =
        u.indices ++ [idxOfStr r.original_feature_id (u.feature_ids ++ [r.original_feature_id])]
      rw [hftc, lookup_tagFrom, if_pos hids, Option.getD_some, Nat.zero_add]

theorem step_cols_char (s : ReconState) (r : BqRow) (hwf : ColWF s) :
    ColWF (step s r) ∧
    (step s r).feature_ids = s.feature_ids ++
      (if r.original_feature_id ∈ s.feature_ids then [] else [r.original_feature_id]) ∧
    (step s r).feature_names = s.feature_names ++
      (if r.original_feature_id ∈ s.feature_ids then [] else [r.feature_name]) ∧
    (step s r).indices = s.indices ++
      [idxOfStr r.original_feature_id (step s r).feature_ids] ∧
    (step s r).data = s.data ++ [r.count] ∧
    r.original_feature_id ∈ (step s r).feature_ids := by
  have hb := stepBoundary_cols s r
  have hwfb : ColWF (stepBoundary s r) := by
    refine ⟨?_, ?_, ?_, ?_⟩
    · rw [hb.1, hb.2.2.1]; exact hwf.1
    · rw [hb.2.1, hb.2.2.1]; exact hwf.2.1
    · rw [hb.2.2.1]; exact hwf.2.2.1
    · rw [hb.2.2.2.1, hb.2.2.1]; exact hwf.2.2.2
  have h := dictAppend_cols (stepBoundary s r) r hwfb
  rw [step]
  rw [hb.2.2.1, hb.2.2.2.1, hb.2.2.2.2.1, hb.2.2.2.2.2] at h
  exact h

theorem foldl_cols_char :
    ∀ (rows : List BqRow) (s : ReconState), ColWF s →
      ColWF (rows.foldl step s) ∧
      (∃ t, (rows.foldl step s).feature_ids = s.feature_ids ++ t) ∧
      (rows.foldl step s).data = s.data ++ rows.map (fun r => r.count) ∧
      (rows.foldl step s).indices = s.indices ++
        rows.map (fun r => idxOfStr r.original_feature_id (rows.foldl step s).feature_ids) ∧
      (∀ a, a ∈ (rows.foldl step s).feature_ids ↔
        a ∈ s.feature_ids ∨ a ∈ rows.map (fun r => r.original_feature_id)) ∧
      (∃ u, (rows.foldl step s).feature_ids.zip (rows.foldl step s).feature_names =
          s.feature_ids.zip s.feature_names ++ u ∧
        ∀ p ∈ u, p ∈ rows.map (fun r => (r.original_feature_id, r.feature_name))) := by
  intro rows
  induction rows with
  | nil =>
    intro s hwf
    exact ⟨hwf, ⟨[], by simp⟩, by simp, by simp, by simp, ⟨[], by simp, by simp⟩⟩
  | cons r rows ih =>
    intro s hwf
    rw [List.foldl_cons]
    have h1 := step_cols_char s r hwf
    have ihh := ih (step s r) h1.1
    obtain ⟨t, ht⟩ := ihh.2.1
    have hrin : r.original_feature_id ∈ (rows.foldl step (step s r)).feature_ids := by
      rw [ht]
      exact List.mem_append.mpr (Or.inl h1.2.2.2.2.2)
    refine ⟨ihh.1, ?_, ?_, ?_, ?_, ?_⟩
    · refine ⟨(if r.original_feature_id ∈ s.feature_ids then [] else [r.original_feature_id]) ++ t, ?_⟩
      rw [ht, h1.2.1, List.append_assoc]
    · rw [ihh.2.2.1, h1.2.2.2.2.1, List.map_cons, List.append_assoc, List.singleton_append]
    · rw [ihh.2.2.2.1, h1.2.2.2.1, List.map_cons, List.append_assoc, List.singleton_append]
      have hidx : idxOfStr r.original_feature_id (step s r).feature_ids =
          idxOfStr r.original_feature_id (rows.foldl step (step s r)).feature_ids := by
        rw [ht, idxOfStr_append_left t h1.2.2.2.2.2]
      rw [hidx]
    · intro a
      rw [ihh.2.2.2.2.1 a, List.map_cons, List.mem_cons, h1.2.1, List.mem_append]
      by_cases hmem : r.original_feature_id ∈ s.feature_ids
      · rw [if_pos hmem]
        constructor
        · intro h
          rcases h with (h | h) | h
          · exact Or.inl h
          · cases h
          · exact Or.inr (Or.inr h)
        · intro h
          rcases h with h | h | h
          · exact Or.inl (Or.inl h)
          · exact Or.inl (Or.inl (h ▸ hmem))
          · exact Or.inr h
      · rw [if_neg hmem]
        constructor
        · intro h
          rcases h with (h | h) | h
          · exact Or.inl h
          · rw [List.mem_singleton] at h
            exact Or.inr (Or.inl h)
          · exact Or.inr (Or.inr h)
        · intro h
          rcases h with h | h | h
          · exact Or.inl (Or.inl h)
          · exact Or.inl (Or.inr (List.mem_singleton.mpr h))
          · exact Or.inr h
    · obtain ⟨u, hu, hus⟩ := ihh.2.2.2.2.2
      by_cases hmem : r.original_feature_id ∈ s.feature_ids
      · have hz : (step s r).feature_ids.zip (step s r).feature_names =
            s.feature_ids.zip s.feature_names := by
          rw [h1.2.1, h1.2.2.1, if_pos hmem, if_pos hmem, List.append_nil, List.append_nil]
        refine ⟨u, by rw [hu, hz], ?_⟩
        intro p hp
        rw [List.map_cons]
        exact List.mem_cons_of_mem _ (hus p hp)
      · have hz : (step s r).feature_ids.zip (step s r).feature_names =
            s.feature_ids.zip s.feature_names ++ [(r.original_feature_id, r.feature_name)] := by
          rw [h1.2.1, h1.2.2.1, if_neg hmem, if_neg hmem,
              List.zip_append hwf.2.2.2.symm]
          rfl
        refine ⟨(r.original_feature_id, r.feature_name) :: u, ?_, ?_⟩
        · rw [hu, hz, List.append_assoc, List.singleton_append]
        · intro p hp
          rw [List.map_cons]
          rcases List.mem_cons.mp hp with h | h
          · subst h
            exact List.mem_cons_self _ _
          · exact List.mem_cons_of_mem _ (hus p h)

end CasPilot

namespace CasPilot

/-- C1 (amended): for a matrix in which every row and every column has
at least one stored entry, with at least one row, distinct row labels,
distinct column labels, in-range column positions and integer-valued
counts, the round trip (metadata dumps + coordinate extraction, sort by
row id, join, single-pass reconstruction) returns the matrix up to the
column permutation `j ↦ idxOfStr (label j) feature_ids` (columns in
first-occurrence order), with row order, row labels and row categories
equal to the original. -/
theorem round_trip_amended (Sc Sf : Int) (A : AnnData)
    (hlen : A.rows.length = A.obs.length)
    (hne : A.obs ≠ [])
    (hrows : ∀ r ∈ A.rows, r ≠ [])
    (hobs : (A.obs.map Prod.fst).Nodup)
    (hvar : (A.var.map Prod.fst).Nodup)
    (hbound : ∀ e ∈ cooEntries A.rows, e.2.1 < A.var.length)
    (hcover : ∀ j, j < A.var.length → ∃ e ∈ cooEntries A.rows, e.2.1 = j)
    (hint : ∀ e ∈ cooEntries A.rows, (e.2.2).den = 1) :
    (roundTripState Sc Sf A).cell_names = A.obs.map (fun c => some c.1) ∧
    (roundTripState Sc Sf A).cell_types = A.obs.map (fun c => some c.2) ∧
    (roundTripState Sc Sf A).indptr =
      ptrsFrom 0 (A.rows.map List.length) ++ [nnzStored A.rows] ∧
    (roundTripState Sc Sf A).data.map (fun z : Int => (z : Rat)) =
      (cooEntries A.rows).map (fun e => e.2.2) ∧
    (roundTripState Sc Sf A).col_count = A.var.length ∧
    (roundTripState Sc Sf A).feature_ids.length = A.var.length ∧
    (roundTripState Sc Sf A).indices = (cooEntries A.rows).map
      (fun e => idxOfStr (A.var.getD e.2.1 ("", "")).1 (roundTripState Sc Sf A).feature_ids) ∧
    Set.BijOn (fun j => idxOfStr (A.var.getD j ("", "")).1 (roundTripState Sc Sf A).feature_ids)
      (Set.Iio A.var.length) (Set.Iio A.var.length) ∧
    (∀ j, j < A.var.length →
      (roundTripState Sc Sf A).feature_ids.getD
          (idxOfStr (A.var.getD j ("", "")).1 (roundTripState Sc Sf A).feature_ids) "" =
        (A.var.getD j ("", "")).1 ∧
      (roundTripState Sc Sf A).feature_names.getD
          (idxOfStr (A.var.getD j ("", "")).1 (roundTripState Sc Sf A).feature_ids) "" =
        (A.var.getD j ("", "")).2) := by
  -- the stream delivered to the reconstructor, in two equivalent shapes
  have hstream : joinTriplets (dump_cell_info Sc A.obs) (dump_feature_info Sf A.var)
      (sortByCellIndex (raw_counts_generator (casIndexOf Sc) (casIndexOf Sf) A.rows)) =
      (cooEntries A.rows).map (mkBq Sc Sf A.obs A.var) := by
    rw [sorted_raw_stream, join_canonical Sc Sf A.obs A.var A.rows hlen hbound]
  have hRdef : roundTripState Sc Sf A =
      random_bq_to_anndata ((cooEntries A.rows).map (mkBq Sc Sf A.obs A.var)) := by
    rw [roundTripState, hstream]
  have hblocks : (blocksFrom Sf A.var Sc A.obs A.rows).flatMap (fun b => b.2.2) =
      (cooEntries A.rows).map (mkBq Sc Sf A.obs A.var) := by
    rw [cooEntries, blocksFrom_flat Sf A.var A.obs A.rows Sc
        (fun m => A.obs.getD m ("", "")) (fun m _ => rfl) hlen.symm]
    rfl
  -- the cells side
  have hfst := blocksFrom_map_fst Sf A.var A.obs A.rows Sc hlen.symm
  have htyp := blocksFrom_map_type Sf A.var A.obs A.rows Sc hlen.symm
  have hlens := blocksFrom_map_len Sf A.var A.obs A.rows Sc hlen.symm
  have hchain : List.Chain' (fun a b => a ≠ b)
      ((blocksFrom Sf A.var Sc A.obs A.rows).map (fun b => b.1)) := by
    rw [hfst]
    exact List.Pairwise.chain' hobs
  have hbne : blocksFrom Sf A.var Sc A.obs A.rows ≠ [] := by
    intro hc
    rw [hc] at hfst
    exact hne (List.map_eq_nil_iff.mp hfst.symm)
  have hcells := recon_blocks (blocksFrom Sf A.var Sc A.obs A.rows)
    (blocksFrom_wf Sf A.var A.obs A.rows Sc hrows) hchain hbne
  have htyp2 : (blocksFrom Sf A.var Sc A.obs A.rows).map (fun b => some b.2.1) =
      A.obs.map (fun c => some c.2) := by
    calc (blocksFrom Sf A.var Sc A.obs A.rows).map (fun b => some b.2.1)
        = ((blocksFrom Sf A.var Sc A.obs A.rows).map (fun b => b.2.1)).map some := by
          rw [List.map_map]; rfl
      _ = (A.obs.map Prod.snd).map some := by rw [htyp]
      _ = A.obs.map (fun c => some c.2) := by rw [List.map_map]; rfl
  have hfst2 : ((A.obs.map Prod.fst)).map some = A.obs.map (fun c => some c.1) := by
    rw [List.map_map]; rfl
  rw [hblocks, hfst, hlens, htyp2, hfst2] at hcells
  -- the columns side
  have hcolwf0 : ColWF initState := ⟨rfl, rfl, List.nodup_nil, rfl⟩
  have hcols := foldl_cols_char ((cooEntries A.rows).map (mkBq Sc Sf A.obs A.var))
    initState hcolwf0
  have hmapfid : (((cooEntries A.rows).map (mkBq Sc Sf A.obs A.var)).map
      (fun r => r.original_feature_id)) =
      (cooEntries A.rows).map (fun e => (A.var.getD e.2.1 ("", "")).1) := by
    rw [List.map_map]; rfl
  have hmapcount : (((cooEntries A.rows).map (mkBq Sc Sf A.obs A.var)).map
      (fun r => r.count)) = (cooEntries A.rows).map (fun e => pyInt e.2.2) := by
    rw [List.map_map]; rfl
  have hmappair : (((cooEntries A.rows).map (mkBq Sc Sf A.obs A.var)).map
      (fun r => (r.original_feature_id, r.feature_name))) =
      (cooEntries A.rows).map
        (fun e => ((A.var.getD e.2.1 ("", "")).1, (A.var.getD e.2.1 ("", "")).2)) := by
    rw [List.map_map]; rfl
  rw [hmapfid, hmapcount, hmappair] at hcols
  -- membership of the final feature_ids
  have hmemiff : ∀ a,
      a ∈ (((cooEntries A.rows).map (mkBq Sc Sf A.obs A.var)).foldl step initState).feature_ids ↔
      a ∈ (cooEntries A.rows).map (fun e => (A.var.getD e.2.1 ("", "")).1) := by
    intro a
    rw [hcols.2.2.2.2.1 a]
    constructor
    · intro h
      rcases h with h | h
      · rw [show initState.feature_ids = ([] : List String) from rfl] at h
        cases h
      · exact h
    · exact Or.inr
  have hidssub : ∀ a ∈ (((cooEntries A.rows).map (mkBq Sc Sf A.obs A.var)).foldl step
      initState).feature_ids, a ∈ A.var.map Prod.fst := by
    intro a ha
    rcases List.mem_map.mp ((hmemiff a).mp ha) with ⟨e, he, hea⟩
    have hj : e.2.1 < A.var.length := hbound e he
    rw [← hea, List.getD_eq_getElem _ _ hj]
    exact List.mem_map.mpr ⟨A.var[e.2.1], List.getElem_mem hj, rfl⟩
  have hvarsub : ∀ a ∈ A.var.map Prod.fst,
      a ∈ (((cooEntries A.rows).map (mkBq Sc Sf A.obs A.var)).foldl step
        initState).feature_ids := by
    intro a ha
    rcases List.mem_map.mp ha with ⟨p, hp, hpa⟩
    obtain ⟨j, hj, hje⟩ := List.getElem_of_mem hp
    obtain ⟨e, he, hej⟩ := hcover j hj
    apply (hmemiff a).mpr
    refine List.mem_map.mpr ⟨e, he, ?_⟩
    rw [hej, List.getD_eq_getElem _ _ hj, hje, hpa]
  have hidnodup := hcols.1.2.2.1
  have hperm : (((cooEntries A.rows).map (mkBq Sc Sf A.obs A.var)).foldl step
      initState).feature_ids.Perm (A.var.map Prod.fst) :=
    (List.perm_ext_iff_of_nodup hidnodup hvar).mpr
      (fun a => ⟨fun h => hidssub a h, fun h => hvarsub a h⟩)
  have hlenids : (((cooEntries A.rows).map (mkBq Sc Sf A.obs A.var)).foldl step
      initState).feature_ids.length = A.var.length := by
    rw [hperm.length_eq, List.length_map]
  have hlab : ∀ j, j < A.var.length → (A.var.getD j ("", "")).1 ∈
      (((cooEntries A.rows).map (mkBq Sc Sf A.obs A.var)).foldl step
        initState).feature_ids := by
    intro j hj
    apply hvarsub
    rw [List.getD_eq_getElem _ _ hj]
    exact List.mem_map.mpr ⟨A.var[j], List.getElem_mem hj, rfl⟩
  have hfstD : ∀ j, j < A.var.length →
      (A.var.getD j ("", "")).1 = (A.var.map Prod.fst).getD j "" := by
    intro j hj
    have hj2 : j < (A.var.map Prod.fst).length := by
      rw [List.length_map]; exact hj
    rw [List.getD_eq_getElem _ _ hj, List.getD_eq_getElem _ _ hj2, List.getElem_map]
  have hinj : ∀ j j', j < A.var.length → j' < A.var.length →
      (A.var.getD j ("", "")).1 = (A.var.getD j' ("", "")).1 → j = j' := by
    intro j j' hj hj' heq
    have hj2 : j < (A.var.map Prod.fst).length := by rw [List.length_map]; exact hj
    have hj'2 : j' < (A.var.map Prod.fst).length := by rw [List.length_map]; exact hj'
    rw [hfstD j hj, hfstD j' hj', List.getD_eq_getElem _ _ hj2,
        List.getD_eq_getElem _ _ hj'2] at heq
    exact (List.Nodup.getElem_inj_iff hvar).mp heq
  -- the closeRow at the end touches no column field
  have hclose : ∀ s : ReconState, (closeRow s).feature_ids = s.feature_ids ∧
      (closeRow s).feature_names = s.feature_names ∧
      (closeRow s).col_count = s.col_count ∧
      (closeRow s).indices = s.indices ∧ (closeRow s).data = s.data :=
    fun s => ⟨rfl, rfl, rfl, rfl, rfl⟩
  have hRids : (roundTripState Sc Sf A).feature_ids =
      (((cooEntries A.rows).map (mkBq Sc Sf A.obs A.var)).foldl step
        initState).feature_ids := by
    rw [hRdef, random_bq_to_anndata]
    rfl
  refine ⟨?_, ?_, ?_, ?_, ?_, ?_, ?_, ?_, ?_⟩
  · rw [hRdef]
    exact hcells.1
  · rw [hRdef]
    exact hcells.2.1
  · rw [hRdef]
    exact hcells.2.2
  · rw [hRdef, random_bq_to_anndata]
    rw [(hclose _).2.2.2.2, hcols.2.2.1]
    have h0 : initState.data = ([] : List Int) := rfl
    rw [h0, List.nil_append, List.map_map]
    apply List.map_congr_left
    intro e he
    show ((pyInt e.2.2 : Int) : Rat) = e.2.2
    have hd1 := hint e he
    rw [pyInt, hd1]
    simp only [Nat.cast_one, Int.tdiv_one]
    exact (Rat.den_eq_one_iff _).mp hd1
  · rw [hRdef, random_bq_to_anndata, (hclose _).2.2.1, hcols.1.2.1, hlenids]
  · rw [hRids, hlenids]
  · rw [hRids, hRdef, random_bq_to_anndata, (hclose _).2.2.2.1, hcols.2.2.2.1]
    have h0 : initState.indices = ([] : List Nat) := rfl
    rw [h0, List.nil_append, List.map_map]
    rfl
  · rw [hRids]
    constructor
    · intro j hj
      rw [Set.mem_Iio] at hj ⊢
      rw [← hlenids]
      exact idxOfStr_lt_length (hlab j hj)
    constructor
    · intro j hj j' hj' heq
      rw [Set.mem_Iio] at hj hj'
      have e1 := getD_idxOfStr (hlab j hj) ""
      have e2 := getD_idxOfStr (hlab j' hj') ""
      have hgg := congrArg
        (fun c => (((cooEntries A.rows).map (mkBq Sc Sf A.obs A.var)).foldl step
          initState).feature_ids.getD c "") heq
      exact hinj j j' hj hj' ((e1.symm.trans hgg).trans e2)
    · intro c hc
      rw [Set.mem_Iio] at hc
      have hc2 : c < (((cooEntries A.rows).map (mkBq Sc Sf A.obs A.var)).foldl step
          initState).feature_ids.length := by
        rw [hlenids]; exact hc
      have hmem : (((cooEntries A.rows).map (mkBq Sc Sf A.obs A.var)).foldl step
          initState).feature_ids.getD c "" ∈
          (((cooEntries A.rows).map (mkBq Sc Sf A.obs A.var)).foldl step
            initState).feature_ids := by
        rw [List.getD_eq_getElem _ _ hc2]
        exact List.getElem_mem hc2
      rcases List.mem_map.mp (hidssub _ hmem) with ⟨p, hp, hpa⟩
      obtain ⟨j, hj, hje⟩ := List.getElem_of_mem hp
      refine ⟨j, Set.mem_Iio.mpr hj, ?_⟩
      show idxOfStr (A.var.getD j ("", "")).1 _ = c
      have hlabj : (A.var.getD j ("", "")).1 =
          (((cooEntries A.rows).map (mkBq Sc Sf A.obs A.var)).foldl step
            initState).feature_ids.getD c "" := by
        rw [List.getD_eq_getElem _ _ hj, hje, hpa]
      rw [hlabj]
      exact idxOfStr_getD hidnodup hc2 ""
  · intro j hj
    obtain ⟨u, hu, hus⟩ := hcols.2.2.2.2.2
    have hzu : (((cooEntries A.rows).map (mkBq Sc Sf A.obs A.var)).foldl step
        initState).feature_ids.zip
        (((cooEntries A.rows).map (mkBq Sc Sf A.obs A.var)).foldl step
          initState).feature_names = u := by
      rw [hu]
      rfl
    have hnameslen := hcols.1.2.2.2
    have hc2 : idxOfStr (A.var.getD j ("", "")).1
        (((cooEntries A.rows).map (mkBq Sc Sf A.obs A.var)).foldl step
          initState).feature_ids <
        (((cooEntries A.rows).map (mkBq Sc Sf A.obs A.var)).foldl step
          initState).feature_ids.length :=
      idxOfStr_lt_length (hlab j hj)
    have hlabeq := getD_idxOfStr (hlab j hj) ""
    have hcz : idxOfStr (A.var.getD j ("", "")).1
        (((cooEntries A.rows).map (mkBq Sc Sf A.obs A.var)).foldl step
          initState).feature_ids <
        ((((cooEntries A.rows).map (mkBq Sc Sf A.obs A.var)).foldl step
          initState).feature_ids.zip
          (((cooEntries A.rows).map (mkBq Sc Sf A.obs A.var)).foldl step
            initState).feature_names).length := by
      rw [List.length_zip, hnameslen]
      simp only [min_self]
      exact hc2
    have hcn : idxOfStr (A.var.getD j ("", "")).1
        (((cooEntries A.rows).map (mkBq Sc Sf A.obs A.var)).foldl step
          initState).feature_ids <
        (((cooEntries A.rows).map (mkBq Sc Sf A.obs A.var)).foldl step
          initState).feature_names.length := by
      rw [hnameslen]; exact hc2
    have hpmem : ((((cooEntries A.rows).map (mkBq Sc Sf A.obs A.var)).foldl step
          initState).feature_ids.getD (idxOfStr (A.var.getD j ("", "")).1
            (((cooEntries A.rows).map (mkBq Sc Sf A.obs A.var)).foldl step
              initState).feature_ids) "",
        (((cooEntries A.rows).map (mkBq Sc Sf A.obs A.var)).foldl step
          initState).feature_names.getD (idxOfStr (A.var.getD j ("", "")).1
            (((cooEntries A.rows).map (mkBq Sc Sf A.obs A.var)).foldl step
              initState).feature_ids) "") ∈ u := by
      rw [List.getD_eq_getElem _ _ hc2, List.getD_eq_getElem _ _ hcn,
          ← List.getElem_zip, ← hzu]
      exact List.getElem_mem hcz
    have hp2 := hus _ hpmem
    rcases List.mem_map.mp hp2 with ⟨e, he, hpe⟩
    have hje : e.2.1 < A.var.length := hbound e he
    have hpe1 := congrArg Prod.fst hpe
    have hpe2 := congrArg Prod.snd hpe
    simp only at hpe1 hpe2
    have hideq : (A.var.getD e.2.1 ("", "")).1 = (A.var.getD j ("", "")).1 := by
      rw [hpe1]
      exact hlabeq
    have hej : e.2.1 = j := hinj e.2.1 j hje hj hideq
    constructor
    · rw [hRids, hlabeq]
    · rw [hRids, hRdef, random_bq_to_anndata, (hclose _).2.1, ← hpe2, hej]

end CasPilot

namespace CasPilot

/-- A concrete 2×2 input for the round-trip witness: both rows and both
columns have stored entries, labels are distinct, counts are integers. -/
def witnessA : AnnData :=
  ⟨[("c0", "t0"), ("c1", "t1")], [("g0", "n0"), ("g1", "n1")],
   [[(1, 2), (0, 3)], [(0, 4)]]⟩

/-- Witness for C1 (amended) at `witnessA` with offsets 10 and 20. -/
theorem round_trip_amended_witness :
    (witnessA.rows.length = witnessA.obs.length ∧
     witnessA.obs ≠ [] ∧
     (∀ r ∈ witnessA.rows, r ≠ []) ∧
     (witnessA.obs.map Prod.fst).Nodup ∧
     (witnessA.var.map Prod.fst).Nodup ∧
     (∀ e ∈ cooEntries witnessA.rows, e.2.1 < witnessA.var.length) ∧
     (∀ j, j < witnessA.var.length → ∃ e ∈ cooEntries witnessA.rows, e.2.1 = j) ∧
     (∀ e ∈ cooEntries witnessA.rows, (e.2.2).den = 1)) ∧
    (roundTripState 10 20 witnessA).cell_names = witnessA.obs.map (fun c => some c.1) :=
  ⟨⟨by decide, by decide, by decide, by decide, by decide, by decide, by decide, by decide⟩,
   (round_trip_amended 10 20 witnessA (by decide) (by decide) (by decide) (by decide)
     (by decide) (by decide) (by decide) (by decide)).1⟩

end CasPilot
